import Mathlib

/-!
Shallow embedding of `config_anonymizerV10.py` (Config-Anonymizer repository).

Lines of text are modelled as `List Char`.  The regular-expression driven
functions of the script are embedded as executable Lean functions that follow
the backtracking semantics of the CPython `re` module on the concrete patterns
appearing in the script.  Since every pattern in the script separates its
quantified character classes by literal characters outside those classes, each
match attempt is deterministic and the scanners below compute exactly the
leftmost-nonoverlapping substitution that `re.sub` performs.
-/

namespace ConfigAnon

/-- ASCII word character, embedding the regex word class used by the word
boundary assertions of the patterns (letters, digits, underscore).  All strings
handled by the claims are ASCII. -/
def isWordChar (c : Char) : Bool := c.isAlphanum || c == '_'

/-- Wordness of an optional neighbouring character; `none` stands for the edge
of the string (start or end), which counts as a non-word position. -/
def wordB : Option Char → Bool
  | none => false
  | some c => isWordChar c

/-- Regex word boundary between two neighbouring positions: holds when exactly
one of the two neighbours is a word character. -/
def boundary (l r : Option Char) : Bool := wordB l != wordB r

/-- Python whitespace for `str.strip`, `str.split(None)` and the regex
whitespace class (ASCII range). -/
def isPySpace (c : Char) : Bool :=
  c == ' ' || c == '\t' || c == '\n' || c == '\r' || c == '\x0b' || c == '\x0c'

/-- Hexadecimal digit as in the character class of the IPv6 patterns. -/
def isHexC (c : Char) : Bool :=
  c.isDigit || ('a' ≤ c && c ≤ 'f') || ('A' ≤ c && c ≤ 'F')

/-- Character class of the third group of the IPv6 substitution pattern:
hexadecimal digit or colon. -/
def isHexColon (c : Char) : Bool := isHexC c || c == ':'

/-! ### Generic substitution scanner

`re.sub` scans the subject left to right; at each position it attempts a match
and, on success, emits the replacement and resumes immediately after the match.
A matcher `M prev s` receives the character left of the current position
(`none` at the start of the subject) and the remaining text; it returns the
replacement text, the last character of the matched text (context for the next
boundary test) and the text after the match.  The fuel argument is initialised
with the length of the subject; every match of the matchers used below consumes
at least one character, so the fuel never runs out. -/

def subGo (M : Option Char → List Char → Option (List Char × Option Char × List Char)) :
    Nat → Option Char → List Char → List Char
  | 0, _, s => s
  | _ + 1, _, [] => []
  | fuel + 1, prev, c :: cs =>
    match M prev (c :: cs) with
    | some (rep, lc, rest) => rep ++ subGo M fuel lc rest
    | none => c :: subGo M fuel (some c) cs

def runSub (M : Option Char → List Char → Option (List Char × Option Char × List Char))
    (s : List Char) : List Char :=
  subGo M s.length none s

/-! ### IPv4 pattern

`ipv4_pattern = \b(\d{1,3})\.(\d{1,3})\.(\d{1,3})\.(\d{1,3})\b`. -/

/-- Assertion combinator: succeeds exactly when the Boolean condition holds. -/
def check (b : Bool) : Option Unit := if b then some () else none

/-- Consume a literal dot. -/
def expectDot : List Char → Option (List Char)
  | '.' :: r => some r
  | _ => none

/-- Consume a literal colon. -/
def expectColon : List Char → Option (List Char)
  | ':' :: r => some r
  | _ => none

/-- Matches `\d{1,3}` followed by a character outside the digit class (or the
end): the maximal digit run, which must have length 1 to 3. -/
def octet (s : List Char) : Option (List Char × List Char) :=
  if (s.takeWhile Char.isDigit).length = 0 ∨ 3 < (s.takeWhile Char.isDigit).length then none
  else some (s.takeWhile Char.isDigit, s.dropWhile Char.isDigit)

/-- Match attempt of `ipv4_pattern` at the current position.  Returns the
replacement produced by the lambda of `replace_ips` (which keeps groups 3 and 4
verbatim), the last matched character, and the rest of the subject. -/
def ipv4M (prev : Option Char) (s : List Char) :
    Option (List Char × Option Char × List Char) :=
  (check (boundary prev s.head?)).bind fun _ =>
  (octet s).bind fun g1 =>
  (expectDot g1.2).bind fun r1 =>
  (octet r1).bind fun g2 =>
  (expectDot g2.2).bind fun r2 =>
  (octet r2).bind fun g3 =>
  (expectDot g3.2).bind fun r3 =>
  (octet r3).bind fun g4 =>
  (check (boundary g4.1.getLast? g4.2.head?)).bind fun _ =>
  some ('x' :: '.' :: 'x' :: '.' :: g3.1 ++ '.' :: g4.1, g4.1.getLast?, g4.2)

/-- Embedding of `ipv4_pattern.sub(lambda m: f"x.x.{m.group(3)}.{m.group(4)}", line)`. -/
def ipv4Sub (s : List Char) : List Char := runSub ipv4M s

/-! ### IPv6 substitution pattern

`ipv6_sub_pattern = \b([0-9a-fA-F]{1,4}):([0-9a-fA-F]{1,4})(:[0-9a-fA-F:]*)?\b`
(the IGNORECASE flag is immaterial, the class already lists both cases). -/

/-- Backtracking of the greedy star of group 3 followed by `\b`: given the
character left of the current cut, the maximal run still available to the star
and the character following the whole run, returns the longest number of run
characters the star can keep such that the word boundary after them holds. -/
def lastBoundary : Char → List Char → Option Char → Option Nat
  | pc, [], stop => if boundary (some pc) stop then some 0 else none
  | pc, c :: cs, stop =>
    match lastBoundary c cs stop with
    | some k => some (k + 1)
    | none => if boundary (some pc) (some c) then some 0 else none

/-- Matches `[0-9a-fA-F]{1,4}` followed by a character outside the hex class
(or the end): the maximal hex run, which must have length 1 to 4. -/
def hexRun14 (s : List Char) : Option (List Char × List Char) :=
  if (s.takeWhile isHexC).length = 0 ∨ 4 < (s.takeWhile isHexC).length then none
  else some (s.takeWhile isHexC, s.dropWhile isHexC)

/-- Match attempt of `ipv6_sub_pattern` at the current position.  Returns the
replacement produced by the lambda of `replace_ips` (`y:y` followed by group 3
when present), the last matched character and the rest of the subject. -/
def ipv6M (prev : Option Char) (s : List Char) :
    Option (List Char × Option Char × List Char) :=
  (check (boundary prev s.head?)).bind fun _ =>
  (hexRun14 s).bind fun g1 =>
  (expectColon g1.2).bind fun r1 =>
  (hexRun14 r1).bind fun g2 =>
  match expectColon g2.2 with
  | some r2 =>
    (match lastBoundary ':' (r2.takeWhile isHexColon) ((r2.dropWhile isHexColon).head?) with
     | some k =>
       some ('y' :: ':' :: 'y' :: ':' :: (r2.takeWhile isHexColon).take k,
             (':' :: (r2.takeWhile isHexColon).take k).getLast?,
             (r2.takeWhile isHexColon).drop k ++ r2.dropWhile isHexColon)
     | none =>
       (check (boundary g2.1.getLast? (some ':'))).bind fun _ =>
       some (['y', ':', 'y'], g2.1.getLast?, ':' :: r2))
  | none =>
    (check (boundary g2.1.getLast? g2.2.head?)).bind fun _ =>
    some (['y', ':', 'y'], g2.1.getLast?, g2.2)

/-- Embedding of `ipv6_sub_pattern.sub(lambda m: f"y:y{m.group(3) if m.group(3) else ''}", line)`. -/
def ipv6Sub (s : List Char) : List Char := runSub ipv6M s

/-- Embedding of `replace_ips`: the IPv4 substitution followed by the IPv6
substitution on its result. -/
def replace_ips (line : List Char) : List Char := ipv6Sub (ipv4Sub line)

/-! ### Python string helpers used by `process_line_for_ips` -/

/-- Embedding of `str.strip()`: remove leading and trailing whitespace. -/
def pyStrip (s : List Char) : List Char :=
  ((s.dropWhile isPySpace).reverse.dropWhile isPySpace).reverse

/-- Embedding of `str.split(None, 1)`: leading whitespace is skipped, the first
token runs to the next whitespace, the separating whitespace run is dropped and
the remainder is kept verbatim; a whitespace-only remainder yields no second
element. -/
def pySplitNone1 (s : List Char) : List (List Char) :=
  let s1 := s.dropWhile isPySpace
  if s1.isEmpty then []
  else
    let tok := s1.takeWhile (fun c => !isPySpace c)
    let rest := (s1.dropWhile (fun c => !isPySpace c)).dropWhile isPySpace
    if rest.isEmpty then [tok] else [tok, rest]

/-- Embedding of `str.rsplit(":", 1)`: split at the last colon when the string
contains one. -/
def pyRsplitColon1 (s : List Char) : List (List Char) :=
  let r := s.reverse
  let t := r.takeWhile (fun c => c != ':')
  if t.length = r.length then [s]
  else [((r.dropWhile (fun c => c != ':')).tail).reverse, t.reverse]

/-! ### Full-string validators

`ipv4_pattern.fullmatch` and `ipv6_pattern.fullmatch`.  For a full match the
word boundaries of `ipv4_pattern` always hold (the first and last matched
characters are digits, the neighbours are the string edges), so the validator
is four dot-separated runs of 1 to 3 digits. -/

/-- Embedding of `ipv4_pattern.fullmatch(s)` as a Boolean. -/
def ipv4_fullmatch (s : List Char) : Bool :=
  match octet s with
  | some (_, '.' :: r1) =>
    match octet r1 with
    | some (_, '.' :: r2) =>
      match octet r2 with
      | some (_, '.' :: r3) =>
        match octet r3 with
        | some (_, []) => true
        | _ => false
      | _ => false
    | _ => false
  | _ => false

/-- Split a string at every colon. -/
def splitColon : List Char → List (List Char)
  | [] => [[]]
  | ':' :: cs => [] :: splitColon cs
  | c :: cs =>
    match splitColon cs with
    | h :: t => (c :: h) :: t
    | [] => [[c]]

/-- Split a string at every dot. -/
def splitDot : List Char → List (List Char)
  | [] => [[]]
  | '.' :: cs => [] :: splitDot cs
  | c :: cs =>
    match splitDot cs with
    | h :: t => (c :: h) :: t
    | [] => [[c]]

/-- Valid hextet of the validator: one to four characters of `[A-F0-9]`
(IGNORECASE adds the lower case). -/
def hextetOk (p : List Char) : Bool := !p.isEmpty && p.length ≤ 4 && p.all isHexC

/-- Splits at the first occurrence of a double colon, when there is one. -/
def splitDoubleColon : List Char → Option (List Char × List Char)
  | ':' :: ':' :: cs => some ([], cs)
  | c :: cs => (splitDoubleColon cs).map (fun p => (c :: p.1, p.2))
  | [] => none

/-- Number of colon-separated hextets of a (possibly empty) fragment; `none`
when the fragment is not a colon-separated list of valid hextets. -/
def hextetCount (u : List Char) : Option Nat :=
  if u.isEmpty then some 0
  else
    let ps := splitColon u
    if ps.all hextetOk then some ps.length else none

/-- Embedding of the compressed alternatives of `ipv6_pattern`, all of the form
`(?:h:){n}` followed by `:` and then `(?::h){m}` (with the empty tail for the
alternatives ending in a bare colon): the string must consist of `n` leading
hextets, a double colon, and `m` trailing hextets, with the bounds of the
respective alternative. -/
def compressedCheck (s : List Char) (nlo nhi mlo mhi : Nat) : Bool :=
  match splitDoubleColon s with
  | some (h, t) =>
    match hextetCount h, hextetCount t with
    | some n, some m =>
      decide (nlo ≤ n) && decide (n ≤ nhi) && decide (mlo ≤ m) && decide (m ≤ mhi)
    | _, _ => false
  | none => false

/-- Octet of the embedded-IPv4 tail of the validator:
`25[0-5]|2[0-4][0-9]|[01]?[0-9][0-9]?` as a full-part match. -/
def strictOctet (p : List Char) : Bool :=
  match p with
  | [a] => a.isDigit
  | [a, b] => a.isDigit && b.isDigit
  | [a, b, c] =>
    (a == '2' && b == '5' && '0' ≤ c && c ≤ '5') ||
    (a == '2' && '0' ≤ b && b ≤ '4' && c.isDigit) ||
    ((a == '0' || a == '1') && b.isDigit && c.isDigit)
  | _ => false

/-- Embedded IPv4 tail of the validator: four dot-separated strict octets. -/
def strictIPv4 (s : List Char) : Bool :=
  let ps := splitDot s
  decide (ps.length = 4) && ps.all strictOctet

/-- Case-insensitive literal prefix (the pattern fragment is given in lower
case); returns the rest on success. -/
def ciStartsWith : List Char → List Char → Option (List Char)
  | [], s => some s
  | _ :: _, [] => none
  | p :: ps, c :: cs => if c.toLower == p then ciStartsWith ps cs else none

/-- Groups `(?::[A-F0-9]{0,4}){0,4}` of the link-local alternative followed by
`%[a-zA-Z0-9]{1,}`, consuming the whole string. -/
def zoneGroups : Nat → List Char → Bool
  | _, '%' :: rest => !rest.isEmpty && rest.all Char.isAlphanum
  | n + 1, ':' :: cs =>
    let r := cs.takeWhile isHexC
    if 4 < r.length then false else zoneGroups n (cs.dropWhile isHexC)
  | _, _ => false

/-- Link-local alternative `fe80:(?::[A-F0-9]{0,4}){0,4}%[a-zA-Z0-9]{1,}` of
the validator (note the literal colon after `fe80`). -/
def altLinkLocal (s : List Char) : Bool :=
  match ciStartsWith ['f', 'e', '8', '0', ':'] s with
  | some rest => zoneGroups 4 rest
  | none => false

/-- Alternative `::(?:ffff(?::0{1,4}){0,1}:){0,1}` followed by the embedded
IPv4 of the validator. -/
def altV4Mapped (s : List Char) : Bool :=
  match s with
  | ':' :: ':' :: rest =>
    strictIPv4 rest ||
    (match ciStartsWith ['f', 'f', 'f', 'f'] rest with
     | some (':' :: r) =>
       strictIPv4 r ||
       (let zs := r.takeWhile (fun c => c == '0')
        decide (1 ≤ zs.length) && decide (zs.length ≤ 4) &&
        (match r.dropWhile (fun c => c == '0') with
         | ':' :: r2 => strictIPv4 r2
         | _ => false))
     | _ => false)
  | _ => false

/-- Alternative `(?:[A-F0-9]{1,4}:){1,4}:` followed by the embedded IPv4 of the
validator. -/
def altV4Compressed (s : List Char) : Bool :=
  match splitDoubleColon s with
  | some (h, t) =>
    (match hextetCount h with
     | some n => decide (1 ≤ n) && decide (n ≤ 4) && strictIPv4 t
     | none => false)
  | none => false

/-- Embedding of `ipv6_pattern.fullmatch(s)` as a Boolean: the string fully
matches some alternative of the Django-derived validator. -/
def ipv6_fullmatch (s : List Char) : Bool :=
  (match splitColon s with
   | ps => decide (ps.length = 8) && ps.all hextetOk) ||
  compressedCheck s 1 7 0 0 ||
  compressedCheck s 1 6 1 1 ||
  compressedCheck s 1 5 1 2 ||
  compressedCheck s 1 4 1 3 ||
  compressedCheck s 1 3 1 4 ||
  compressedCheck s 1 2 1 5 ||
  compressedCheck s 1 1 1 6 ||
  compressedCheck s 0 0 0 7 ||
  altLinkLocal s ||
  altV4Mapped s ||
  altV4Compressed s

/-- Embedding of `process_line_for_ips`: Route-Distinguisher exception logic
with fallthrough to `replace_ips`. -/
def process_line_for_ips (line : List Char) : List Char :=
  let stripped := pyStrip line
  if stripped.take 3 = ['r', 'd', ' '] then
    match pySplitNone1 stripped with
    | [_, rdValue] =>
      match pyRsplitColon1 rdValue with
      | [lead, _] =>
        if ipv4_fullmatch lead then ipv4Sub line
        else if ipv6_fullmatch lead then ipv6Sub line
        else line
      | _ => replace_ips line
    | _ => replace_ips line
  else replace_ips line

/-! ### Text masking

`process_line_for_text_masking` with its two anchored patterns
`^(?P<indent>\s*)description .+` and `^(?P<indent>\s*)! .+`.  Both are matched
without MULTILINE, so only at the start of the string; `\s*` takes the maximal
whitespace prefix (the literal after it starts with a non-whitespace
character), `.+` takes everything up to the next newline (or the end) and must
be nonempty; the replacement keeps the named group `indent`. -/

/-- Anchored masking of `keyword` lines: when the line is whitespace, then
`key`, then at least one non-newline character, the part matched by `.+` is
replaced so that the line becomes indent, `key`, `repl`, and the unmatched tail
from the first newline on. -/
def maskAfterKey (key repl line : List Char) : List Char :=
  if (line.dropWhile isPySpace).take key.length = key then
    if (((line.dropWhile isPySpace).drop key.length).takeWhile (fun c => c != '\n')).isEmpty
    then line
    else
      line.takeWhile isPySpace ++ key ++ repl ++
        ((line.dropWhile isPySpace).drop key.length).dropWhile (fun c => c != '\n')
  else line

/-- Embedding of `process_line_for_text_masking(line, mask_desc, mask_comment)`. -/
def process_line_for_text_masking (line : List Char) (maskDesc maskComment : Bool) :
    List Char :=
  if maskComment then
    maskAfterKey ("! ".toList) ("<comment removed>".toList)
      (if maskDesc then
         maskAfterKey ("description ".toList) ("<description removed>".toList) line
       else line)
  else
    if maskDesc then
      maskAfterKey ("description ".toList) ("<description removed>".toList) line
    else line

/-! ### VRF registry and substitution -/

/-- Embedding of `vrf_definition_pattern.match(line)` returning the captured
group: `^\s*vrf definition (\S+)` anchored at the start, `\S+` taking the
maximal nonempty run of non-whitespace characters. -/
def vrfDefCapture (line : List Char) : Option (List Char) :=
  if (line.dropWhile isPySpace).take 15 = "vrf definition ".toList then
    if (((line.dropWhile isPySpace).drop 15).takeWhile (fun c => !isPySpace c)).isEmpty
    then none
    else some (((line.dropWhile isPySpace).drop 15).takeWhile (fun c => !isPySpace c))
  else none

/-- Consume a literal token. -/
def takeLit (lit s : List Char) : Option (List Char) :=
  if s.take lit.length = lit then some (s.drop lit.length) else none

/-- Match attempt of `\b<name>\b` (with `re.escape`, the name is matched
literally) at the current position, replacing by `rep`. -/
def wordM (name rep : List Char) (prev : Option Char) (s : List Char) :
    Option (List Char × Option Char × List Char) :=
  (check (boundary prev s.head?)).bind fun _ =>
  (takeLit name s).bind fun rest =>
  (check (boundary name.getLast? rest.head?)).bind fun _ =>
  some (rep, name.getLast?, rest)

/-- Embedding of `re.compile(r"\b" + re.escape(name) + r"\b").sub(rep, s)`. -/
def wordSub (name rep s : List Char) : List Char := runSub (wordM name rep) s

/-- Decimal digits of a number, most significant first (`f"{n}"`); the fuel is
always sufficient since a number needs at most `n + 1` digits. -/
def natCharsAux : Nat → Nat → List Char
  | 0, _ => []
  | fuel + 1, n =>
    if n < 10 then [Nat.digitChar n]
    else natCharsAux fuel (n / 10) ++ [Nat.digitChar (n % 10)]

/-- Decimal digits of a number, most significant first (`f"{n}"`). -/
def natChars (n : Nat) : List Char := natCharsAux (n + 1) n

/-- Pseudonym `vrf_<n>` of the VRF counter. -/
def vrfPseudonym (n : Nat) : List Char := "vrf_".toList ++ natChars n

/-- Pass 1 of the two-pass mode: fold over all lines collecting the first
occurrence of each captured VRF name, bound to `vrf_<counter>` with the counter
starting at 1 and incremented per insertion. -/
def discoverVrfs (lines : List (List Char)) : List (List Char × List Char) :=
  lines.foldl
    (fun acc line =>
      match vrfDefCapture line with
      | some name =>
        if acc.any (fun p => p.1 == name) then acc
        else acc ++ [(name, vrfPseudonym (acc.length + 1))]
      | none => acc)
    []

/-- Replacement of every registered VRF name in registry order, as in pass 2
step A of `main`. -/
def applyVrfMap (m : List (List Char × List Char)) (line : List Char) : List Char :=
  m.foldl (fun l p => wordSub p.1 p.2 l) line

/-! ### Orchestrator -/

/-- Resolved command-line masking options of `main`. -/
structure MaskingOptions where
  maskVrfNames : Bool
  maskDesc : Bool
  maskComment : Bool

/-- Per-line processing of the one-pass branch of `main`: text masking, then IP
masking. -/
def processLineOnePass (opts : MaskingOptions) (line : List Char) : List Char :=
  process_line_for_ips (process_line_for_text_masking line opts.maskDesc opts.maskComment)

/-- Per-line processing of pass 2 of the two-pass branch of `main`: VRF
substitution, then text masking, then IP masking. -/
def processLineTwoPass (opts : MaskingOptions) (vrfMap : List (List Char × List Char))
    (line : List Char) : List Char :=
  process_line_for_ips
    (process_line_for_text_masking (applyVrfMap vrfMap line) opts.maskDesc opts.maskComment)

/-- Embedding of `main` after flag resolution: the list of lines printed (each
with `end=""`, so exactly the processed lines). -/
def anonymize (opts : MaskingOptions) (lines : List (List Char)) : List (List Char) :=
  if opts.maskVrfNames then
    lines.map (processLineTwoPass opts (discoverVrfs lines))
  else
    lines.map (processLineOnePass opts)

/-! ### Basic lemmas about the scanners -/

theorem subGo_nil (M : Option Char → List Char → Option (List Char × Option Char × List Char))
    (fuel : Nat) (prev : Option Char) : subGo M fuel prev [] = [] := by
  cases fuel <;> rfl

theorem subGo_succ_cons (M : Option Char → List Char → Option (List Char × Option Char × List Char))
    (fuel : Nat) (prev : Option Char) (c : Char) (cs : List Char) :
    subGo M (fuel + 1) prev (c :: cs) =
      match M prev (c :: cs) with
      | some (rep, lc, rest) => rep ++ subGo M fuel lc rest
      | none => c :: subGo M fuel (some c) cs := rfl

/-- When the matcher fires on the whole remaining subject, the substitution is
just the replacement. -/
theorem runSub_single (M : Option Char → List Char → Option (List Char × Option Char × List Char))
    {s rep : List Char} {lc : Option Char}
    (hs : s ≠ []) (h : M none s = some (rep, lc, [])) : runSub M s = rep := by
  obtain ⟨c, cs, rfl⟩ := List.exists_cons_of_ne_nil hs
  show subGo M (cs.length + 1) none (c :: cs) = rep
  rw [subGo_succ_cons, h]
  simp [subGo_nil]

/-- A subject on which the matcher can never fire is left unchanged, whatever
the fuel. -/
theorem subGo_id_of_none (M : Option Char → List Char → Option (List Char × Option Char × List Char))
    (P : List Char → Prop)
    (hP : ∀ prev t, P t → M prev t = none)
    (hTail : ∀ c cs, P (c :: cs) → P cs) :
    ∀ fuel prev s, P s → subGo M fuel prev s = s := by
  intro fuel
  induction fuel with
  | zero => intro prev s _; rfl
  | succ f ih =>
    intro prev s hs
    cases s with
    | nil => rfl
    | cons c cs =>
      rw [subGo_succ_cons, hP prev _ hs]
      exact congrArg (c :: ·) (ih (some c) cs (hTail c cs hs))

theorem mem_of_mem_dropWhile {p : Char → Bool} {s : List Char} {a : Char}
    (h : a ∈ s.dropWhile p) : a ∈ s := by
  induction s with
  | nil => simpa using h
  | cons c cs ih =>
    by_cases hc : p c
    · simp only [List.dropWhile_cons, hc, if_true] at h
      exact List.mem_cons_of_mem _ (ih h)
    · simp only [List.dropWhile_cons, hc, if_false] at h
      exact h

theorem takeWhile_append_all {p : Char → Bool} {u : List Char} (v : List Char)
    (h : u.all p = true) : (u ++ v).takeWhile p = u ++ v.takeWhile p := by
  induction u with
  | nil => rfl
  | cons c cs ih =>
    simp only [List.all_cons, Bool.and_eq_true] at h
    simp [List.takeWhile_cons, h.1, ih h.2]

theorem dropWhile_append_all {p : Char → Bool} {u : List Char} (v : List Char)
    (h : u.all p = true) : (u ++ v).dropWhile p = v.dropWhile p := by
  induction u with
  | nil => rfl
  | cons c cs ih =>
    simp only [List.all_cons, Bool.and_eq_true] at h
    simp [List.dropWhile_cons, h.1, ih h.2]

theorem takeWhile_all {p : Char → Bool} {u : List Char} (h : u.all p = true) :
    u.takeWhile p = u := by
  have := takeWhile_append_all (p := p) (u := u) [] h
  simpa using this

theorem dropWhile_all {p : Char → Bool} {u : List Char} (h : u.all p = true) :
    u.dropWhile p = [] := by
  have := dropWhile_append_all (p := p) (u := u) [] h
  simpa using this

theorem isWordChar_of_digit {c : Char} (h : c.isDigit = true) : isWordChar c = true := by
  simp [isWordChar, Char.isAlphanum, h]

theorem isWordChar_of_hex {c : Char} (h : isHexC c = true) : isWordChar c = true := by
  simp only [isHexC, Bool.or_eq_true, Bool.and_eq_true, decide_eq_true_eq] at h
  simp only [isWordChar, Char.isAlphanum, Char.isAlpha, Char.isUpper, Char.isLower,
    Bool.or_eq_true, Bool.and_eq_true, decide_eq_true_eq]
  rcases h with (h | ⟨h1, h2⟩) | ⟨h1, h2⟩
  · simp [h]
  · refine Or.inl (Or.inl (Or.inr ⟨h1, ?_⟩))
    exact le_trans h2 (show ('f' : Char) ≤ 'z' by decide)
  · refine Or.inl (Or.inl (Or.inl ⟨h1, ?_⟩))
    exact le_trans h2 (show ('F' : Char) ≤ 'Z' by decide)

theorem wordB_getLast?_of_all {p : Char → Bool} {l : List Char}
    (hl : l ≠ []) (hall : l.all p = true)
    (hw : ∀ c, p c = true → isWordChar c = true) : wordB l.getLast? = true := by
  obtain ⟨c, cs, rfl⟩ := List.exists_cons_of_ne_nil hl
  have hmem : (c :: cs).getLast (by simp) ∈ c :: cs := List.getLast_mem _
  rw [List.getLast?_eq_getLast _ (by simp)]
  simp only [wordB]
  exact hw _ (by
    have := List.all_eq_true.mp hall _ hmem
    exact this)

/-! ### The IPv4 matcher on a well-formed token -/

theorem check_true_eq {b : Bool} (h : b = true) : check b = some () := by
  simp [check, h]

theorem check_false_eq {b : Bool} (h : b = false) : check b = none := by
  simp [check, h]

theorem expectDot_cons (r : List Char) : expectDot ('.' :: r) = some r := rfl

theorem expectColon_cons (r : List Char) : expectColon (':' :: r) = some r := rfl

theorem expectDot_eq_none {t : List Char} (h : t.head? ≠ some '.') : expectDot t = none := by
  cases t with
  | nil => rfl
  | cons c r =>
    have hc : ¬(c = '.') := fun e => h (by simp [e])
    unfold expectDot
    split
    · rename_i heq
      injection heq with h1 _
      exact absurd h1 hc
    · rfl

theorem expectColon_eq_none {t : List Char} (h : t.head? ≠ some ':') : expectColon t = none := by
  cases t with
  | nil => rfl
  | cons c r =>
    have hc : ¬(c = ':') := fun e => h (by simp [e])
    unfold expectColon
    split
    · rename_i heq
      injection heq with h1 _
      exact absurd h1 hc
    · rfl

/-- Behaviour of `octet` at a token followed by a character outside the digit
class. -/
theorem octet_token {u : List Char} (c : Char) (v : List Char)
    (hu : u ≠ []) (hu3 : u.length ≤ 3) (hud : u.all Char.isDigit = true)
    (hc : c.isDigit = false) :
    octet (u ++ c :: v) = some (u, c :: v) := by
  unfold octet
  rw [takeWhile_append_all _ hud, dropWhile_append_all _ hud]
  simp [List.takeWhile_cons, List.dropWhile_cons, hc, hu, hu3,
    Nat.not_lt.mpr hu3, List.length_eq_zero, Nat.lt_iff_add_one_le]

/-- Behaviour of `octet` on a bare token. -/
theorem octet_last {u : List Char}
    (hu : u ≠ []) (hu3 : u.length ≤ 3) (hud : u.all Char.isDigit = true) :
    octet u = some (u, []) := by
  unfold octet
  rw [takeWhile_all hud, dropWhile_all hud]
  simp [hu, Nat.not_lt.mpr hu3, List.length_eq_zero]

theorem octet_shape {s : List Char} {p : List Char × List Char} (h : octet s = some p) :
    p.2 = s.dropWhile Char.isDigit := by
  unfold octet at h
  split at h
  · cases h
  · cases h
    rfl

theorem hexRun14_shape {s : List Char} {p : List Char × List Char} (h : hexRun14 s = some p) :
    p.2 = s.dropWhile isHexC := by
  unfold hexRun14 at h
  split at h
  · cases h
  · cases h
    rfl

/-- Behaviour of `hexRun14` at a token followed by a character outside the hex
class. -/
theorem hexRun14_token {u : List Char} (c : Char) (v : List Char)
    (hu : u ≠ []) (hu4 : u.length ≤ 4) (huh : u.all isHexC = true)
    (hc : isHexC c = false) :
    hexRun14 (u ++ c :: v) = some (u, c :: v) := by
  unfold hexRun14
  rw [takeWhile_append_all _ huh, dropWhile_append_all _ huh]
  simp [List.takeWhile_cons, List.dropWhile_cons, hc, hu, hu4,
    Nat.not_lt.mpr hu4, List.length_eq_zero, Nat.lt_iff_add_one_le]

/-- Behaviour of `hexRun14` on a bare token. -/
theorem hexRun14_last {u : List Char}
    (hu : u ≠ []) (hu4 : u.length ≤ 4) (huh : u.all isHexC = true) :
    hexRun14 u = some (u, []) := by
  unfold hexRun14
  rw [takeWhile_all huh, dropWhile_all huh]
  simp [hu, Nat.not_lt.mpr hu4, List.length_eq_zero]

theorem head?_append_of_ne_nil {u : List Char} (v : List Char) (hu : u ≠ []) :
    (u ++ v).head? = u.head? := by
  obtain ⟨c, cs, rfl⟩ := List.exists_cons_of_ne_nil hu
  rfl

theorem wordB_head?_of_all {p : Char → Bool} {l : List Char} (v : List Char)
    (hl : l ≠ []) (hall : l.all p = true)
    (hw : ∀ c, p c = true → isWordChar c = true) : wordB (l ++ v).head? = true := by
  obtain ⟨c, cs, rfl⟩ := List.exists_cons_of_ne_nil hl
  have : p c = true := by
    have := List.all_eq_true.mp hall c (by simp)
    simpa using this
  simp [wordB, hw c this]

/-- The IPv4 matcher fires on a full well-formed token when the position left
of it is not a word character. -/
theorem ipv4M_token {prev : Option Char} {a b c d : List Char}
    (hp : wordB prev = false)
    (ha : a ≠ []) (ha3 : a.length ≤ 3) (had : a.all Char.isDigit = true)
    (hb : b ≠ []) (hb3 : b.length ≤ 3) (hbd : b.all Char.isDigit = true)
    (hc : c ≠ []) (hc3 : c.length ≤ 3) (hcd : c.all Char.isDigit = true)
    (hd : d ≠ []) (hd3 : d.length ≤ 3) (hdd : d.all Char.isDigit = true) :
    ipv4M prev (a ++ '.' :: (b ++ '.' :: (c ++ '.' :: d))) =
      some ('x' :: '.' :: 'x' :: '.' :: c ++ '.' :: d, d.getLast?, []) := by
  have hb1 : boundary prev (a ++ '.' :: (b ++ '.' :: (c ++ '.' :: d))).head? = true := by
    rw [head?_append_of_ne_nil _ ha]
    obtain ⟨a0, a', rfl⟩ := List.exists_cons_of_ne_nil ha
    have ha0 : a0.isDigit = true := by
      have := List.all_eq_true.mp had a0 (by simp)
      simpa using this
    simp only [boundary, List.head?_cons]
    rw [hp]
    simp [wordB, isWordChar_of_digit ha0]
  have o1 := octet_token '.' (b ++ '.' :: (c ++ '.' :: d)) ha ha3 had (by decide)
  have o2 := octet_token '.' (c ++ '.' :: d) hb hb3 hbd (by decide)
  have o3 := octet_token '.' d hc hc3 hcd (by decide)
  have o4 := octet_last hd hd3 hdd
  have hb2 : boundary d.getLast? ([] : List Char).head? = true := by
    have hw := wordB_getLast?_of_all hd hdd (fun _ h => isWordChar_of_digit h)
    simp only [boundary, List.head?_nil]
    rw [hw]
    rfl
  unfold ipv4M
  rw [check_true_eq hb1, Option.some_bind, o1, Option.some_bind]
  dsimp only
  rw [expectDot_cons, Option.some_bind, o2, Option.some_bind]
  dsimp only
  rw [expectDot_cons, Option.some_bind, o3, Option.some_bind]
  dsimp only
  rw [expectDot_cons, Option.some_bind, o4, Option.some_bind]
  dsimp only
  rw [check_true_eq hb2, Option.some_bind]

/-- The IPv4 matcher needs a dot in the subject. -/
theorem ipv4M_none_of_no_dot {prev : Option Char} {s : List Char} (h : '.' ∉ s) :
    ipv4M prev s = none := by
  unfold ipv4M
  rcases hchk : check (boundary prev s.head?) with _ | u
  · rfl
  · rw [Option.some_bind]
    rcases ho : octet s with _ | g1
    · rfl
    · rw [Option.some_bind]
      have hdw : g1.2 = s.dropWhile Char.isDigit := octet_shape ho
      have : expectDot g1.2 = none := by
        apply expectDot_eq_none
        intro hhd
        apply h
        have : '.' ∈ g1.2 := by
          rcases hg : g1.2 with _ | ⟨c, r⟩
          · rw [hg] at hhd; cases hhd
          · rw [hg] at hhd
            simp only [List.head?_cons, Option.some.injEq] at hhd
            simp [hg, hhd]
        rw [hdw] at this
        exact mem_of_mem_dropWhile this
      rw [this]
      rfl

/-- The IPv6 matcher needs a colon in the subject. -/
theorem ipv6M_none_of_no_colon {prev : Option Char} {s : List Char} (h : ':' ∉ s) :
    ipv6M prev s = none := by
  unfold ipv6M
  rcases hchk : check (boundary prev s.head?) with _ | u
  · rfl
  · rw [Option.some_bind]
    rcases ho : hexRun14 s with _ | g1
    · rfl
    · rw [Option.some_bind]
      have hdw : g1.2 = s.dropWhile isHexC := hexRun14_shape ho
      have : expectColon g1.2 = none := by
        apply expectColon_eq_none
        intro hhd
        apply h
        have : ':' ∈ g1.2 := by
          rcases hg : g1.2 with _ | ⟨c, r⟩
          · rw [hg] at hhd; cases hhd
          · rw [hg] at hhd
            simp only [List.head?_cons, Option.some.injEq] at hhd
            simp [hg, hhd]
        rw [hdw] at this
        exact mem_of_mem_dropWhile this
      rw [this]
      rfl

theorem lastBoundary_nil (pc : Char) (stop : Option Char) :
    lastBoundary pc [] stop = if boundary (some pc) stop then some 0 else none := rfl

theorem lastBoundary_cons (pc c : Char) (cs : List Char) (stop : Option Char) :
    lastBoundary pc (c :: cs) stop =
      match lastBoundary c cs stop with
      | some k => some (k + 1)
      | none => if boundary (some pc) (some c) then some 0 else none := rfl

/-- When the run ends in a word character and the subject ends with the run,
the greedy star keeps the whole run. -/
theorem lastBoundary_full (pc : Char) (r : List Char)
    (hr : r ≠ []) (hlast : wordB r.getLast? = true) :
    lastBoundary pc r none = some r.length := by
  induction r generalizing pc with
  | nil => exact absurd rfl hr
  | cons c cs ih =>
    cases cs with
    | nil =>
      have hb : boundary (some c) none = true := by
        simp only [boundary]
        rw [show wordB (some c) = true from by simpa using hlast]
        rfl
      simp [lastBoundary_cons, lastBoundary_nil, hb]
    | cons c2 cs2 =>
      have hlast2 : wordB (c2 :: cs2).getLast? = true := by
        rwa [List.getLast?_cons_cons] at hlast
      rw [lastBoundary_cons, ih c (by simp) hlast2]
      simp

/-- The IPv6 matcher on a two-hextet token with nothing after it. -/
theorem ipv6M_token2 {prev : Option Char} {h1 h2 : List Char}
    (hp : wordB prev = false)
    (h1n : h1 ≠ []) (h14 : h1.length ≤ 4) (h1h : h1.all isHexC = true)
    (h2n : h2 ≠ []) (h24 : h2.length ≤ 4) (h2h : h2.all isHexC = true) :
    ipv6M prev (h1 ++ ':' :: h2) = some (['y', ':', 'y'], h2.getLast?, []) := by
  have hb1 : boundary prev (h1 ++ ':' :: h2).head? = true := by
    rw [head?_append_of_ne_nil _ h1n]
    obtain ⟨a0, a', rfl⟩ := List.exists_cons_of_ne_nil h1n
    have ha0 : isHexC a0 = true := by
      have := List.all_eq_true.mp h1h a0 (by simp)
      simpa using this
    simp only [boundary, List.head?_cons]
    rw [hp]
    simp [wordB, isWordChar_of_hex ha0]
  have o1 := hexRun14_token ':' h2 h1n h14 h1h (by decide)
  have o2 := hexRun14_last h2n h24 h2h
  have hb2 : boundary h2.getLast? ([] : List Char).head? = true := by
    have hw := wordB_getLast?_of_all h2n h2h (fun _ h => isWordChar_of_hex h)
    simp only [boundary, List.head?_nil]
    rw [hw]
    rfl
  unfold ipv6M
  rw [check_true_eq hb1, Option.some_bind, o1, Option.some_bind]
  dsimp only
  rw [expectColon_cons, Option.some_bind, o2, Option.some_bind]
  dsimp only
  rw [show expectColon ([] : List Char) = none from rfl]
  dsimp only
  rw [check_true_eq hb2, Option.some_bind]

/-- The IPv6 matcher on a token with a remainder made of hex digits and colons
that ends in a word character: group 3 takes the whole remainder. -/
theorem ipv6M_token3 {prev : Option Char} {h1 h2 r : List Char}
    (hp : wordB prev = false)
    (h1n : h1 ≠ []) (h14 : h1.length ≤ 4) (h1h : h1.all isHexC = true)
    (h2n : h2 ≠ []) (h24 : h2.length ≤ 4) (h2h : h2.all isHexC = true)
    (hrn : r ≠ []) (hrA : r.all isHexColon = true) (hrL : wordB r.getLast? = true) :
    ipv6M prev (h1 ++ ':' :: (h2 ++ ':' :: r)) =
      some ('y' :: ':' :: 'y' :: ':' :: r, (':' :: r).getLast?, []) := by
  have hb1 : boundary prev (h1 ++ ':' :: (h2 ++ ':' :: r)).head? = true := by
    rw [head?_append_of_ne_nil _ h1n]
    obtain ⟨a0, a', rfl⟩ := List.exists_cons_of_ne_nil h1n
    have ha0 : isHexC a0 = true := by
      have := List.all_eq_true.mp h1h a0 (by simp)
      simpa using this
    simp only [boundary, List.head?_cons]
    rw [hp]
    simp [wordB, isWordChar_of_hex ha0]
  have o1 := hexRun14_token ':' (h2 ++ ':' :: r) h1n h14 h1h (by decide)
  have o2 := hexRun14_token ':' r h2n h24 h2h (by decide)
  unfold ipv6M
  rw [check_true_eq hb1, Option.some_bind, o1, Option.some_bind]
  dsimp only
  rw [expectColon_cons, Option.some_bind, o2, Option.some_bind]
  dsimp only
  rw [expectColon_cons]
  dsimp only
  rw [takeWhile_all hrA, dropWhile_all hrA]
  rw [show (([] : List Char)).head? = none from rfl]
  rw [lastBoundary_full ':' r hrn hrL]
  dsimp only
  rw [List.take_length, List.drop_length]
  simp

theorem ipv4Sub_id_of_no_dot {s : List Char} (h : '.' ∉ s) : ipv4Sub s = s :=
  subGo_id_of_none ipv4M (fun t => '.' ∉ t)
    (fun _ t ht => ipv4M_none_of_no_dot ht)
    (fun c cs hcs hm => hcs (List.mem_cons_of_mem c hm))
    s.length none s h

theorem ipv6Sub_id_of_no_colon {s : List Char} (h : ':' ∉ s) : ipv6Sub s = s :=
  subGo_id_of_none ipv6M (fun t => ':' ∉ t)
    (fun _ t ht => ipv6M_none_of_no_colon ht)
    (fun c cs hcs hm => hcs (List.mem_cons_of_mem c hm))
    s.length none s h

theorem not_mem_of_all {p : Char → Bool} {l : List Char} {a : Char}
    (h : l.all p = true) (ha : p a = false) : a ∉ l := by
  intro hm
  have := List.all_eq_true.mp h a hm
  simp only [this] at ha
  cases ha

theorem ne_nil_append {u v : List Char} (hu : u ≠ []) : u ++ v ≠ [] := by
  obtain ⟨c, cs, rfl⟩ := List.exists_cons_of_ne_nil hu
  simp

theorem not_mem_cons_of {a c : Char} {l : List Char} (h1 : a ≠ c) (h2 : a ∉ l) :
    a ∉ c :: l := by
  intro hm
  rcases List.mem_cons.mp hm with rfl | hm2
  · exact h1 rfl
  · exact h2 hm2

theorem not_mem_append_of {a : Char} {u v : List Char} (h1 : a ∉ u) (h2 : a ∉ v) :
    a ∉ u ++ v := by
  intro hm
  rcases List.mem_append.mp hm with hm | hm
  · exact h1 hm
  · exact h2 hm

/-- Specification-side description of first-appearance order: the distinct
names in order of first occurrence. -/
def firstSeen (names : List (List Char)) : List (List Char) :=
  names.foldl (fun acc n => if acc.any (fun m => m == n) then acc else acc ++ [n]) []

/-- The registry insertion step of pass 1, on an already captured name. -/
def vrfStep (acc : List (List Char × List Char)) (name : List Char) :
    List (List Char × List Char) :=
  if acc.any (fun p => p.1 == name) then acc
  else acc ++ [(name, vrfPseudonym (acc.length + 1))]

theorem discoverVrfs_eq_foldNames (lines : List (List Char)) :
    discoverVrfs lines = (lines.filterMap vrfDefCapture).foldl vrfStep [] := by
  unfold discoverVrfs
  suffices h : ∀ (ls : List (List Char)) (acc : List (List Char × List Char)),
      ls.foldl
        (fun acc line =>
          match vrfDefCapture line with
          | some name =>
            if acc.any (fun p => p.1 == name) then acc
            else acc ++ [(name, vrfPseudonym (acc.length + 1))]
          | none => acc)
        acc = (ls.filterMap vrfDefCapture).foldl vrfStep acc by
    exact h lines []
  intro ls
  induction ls with
  | nil => intro acc; rfl
  | cons l t ih =>
    intro acc
    rcases hcap : vrfDefCapture l with _ | name
    · rw [List.foldl_cons, List.filterMap_cons_none hcap]
      rw [show (match vrfDefCapture l with
          | some name =>
            if acc.any (fun p => p.1 == name) then acc
            else acc ++ [(name, vrfPseudonym (acc.length + 1))]
          | none => acc) = acc from by rw [hcap]]
      exact ih acc
    · rw [List.foldl_cons, List.filterMap_cons_some hcap, List.foldl_cons]
      rw [show (match vrfDefCapture l with
          | some name =>
            if acc.any (fun p => p.1 == name) then acc
            else acc ++ [(name, vrfPseudonym (acc.length + 1))]
          | none => acc) = vrfStep acc name from by rw [hcap]; rfl]
      exact ih (vrfStep acc name)

theorem foldNames_fst (names : List (List Char)) :
    ∀ acc : List (List Char × List Char),
      (names.foldl vrfStep acc).map Prod.fst =
        names.foldl (fun acc n => if acc.any (fun m => m == n) then acc else acc ++ [n])
          (acc.map Prod.fst) := by
  induction names with
  | nil => intro acc; rfl
  | cons n t ih =>
    intro acc
    rw [List.foldl_cons, List.foldl_cons, ih (vrfStep acc n)]
    congr 1
    unfold vrfStep
    have hany : (acc.map Prod.fst).any (fun m => m == n) = acc.any (fun p => p.1 == n) := by
      induction acc with
      | nil => rfl
      | cons p t2 ih2 => simp only [List.map_cons, List.any_cons, ih2]
    rw [hany]
    by_cases hc : acc.any (fun p => p.1 == n) = true
    · rw [if_pos hc, if_pos hc]
    · rw [if_neg hc, if_neg hc, List.map_append]
      rfl

theorem foldNames_snd (names : List (List Char)) :
    ∀ acc : List (List Char × List Char),
      acc.map Prod.snd = (List.range acc.length).map (fun i => vrfPseudonym (i + 1)) →
      (names.foldl vrfStep acc).map Prod.snd =
        (List.range (names.foldl vrfStep acc).length).map (fun i => vrfPseudonym (i + 1)) := by
  induction names with
  | nil => intro acc h; exact h
  | cons n t ih =>
    intro acc h
    rw [List.foldl_cons]
    apply ih
    unfold vrfStep
    by_cases hc : acc.any (fun p => p.1 == n) = true
    · rw [if_pos hc]
      exact h
    · rw [if_neg hc, List.map_append, List.length_append, h]
      simp [List.range_succ]

/-! ### Machinery for the line-structure claim (C8)

The key facts: every scanner commutes with appending a final newline, and no
scanner introduces a newline into a newline-free line. -/

theorem takeWhile_append_single {p : Char → Bool} {c : Char} (hc : p c = false)
    (u : List Char) : (u ++ [c]).takeWhile p = u.takeWhile p := by
  induction u with
  | nil => simp [List.takeWhile_cons, hc]
  | cons a t ih =>
    by_cases ha : p a
    · simp [List.takeWhile_cons, ha, ih]
    · simp [List.takeWhile_cons, ha]

theorem dropWhile_append_single {p : Char → Bool} {c : Char} (hc : p c = false)
    (u : List Char) : (u ++ [c]).dropWhile p = u.dropWhile p ++ [c] := by
  induction u with
  | nil => simp [List.dropWhile_cons, hc]
  | cons a t ih =>
    by_cases ha : p a
    · simp [List.dropWhile_cons, ha, ih]
    · simp [List.dropWhile_cons, ha]

theorem dropWhile_append_of_ne_nil {p : Char → Bool} {u : List Char} (v : List Char)
    (h : u.dropWhile p ≠ []) : (u ++ v).dropWhile p = u.dropWhile p ++ v := by
  induction u with
  | nil => exact absurd rfl h
  | cons a t ih =>
    by_cases ha : p a
    · simp only [List.dropWhile_cons, ha, if_true, List.cons_append] at h ⊢
      exact ih h
    · simp [List.dropWhile_cons, ha]

theorem takeWhile_append_of_ne_nil {p : Char → Bool} {u : List Char} (v : List Char)
    (h : u.dropWhile p ≠ []) : (u ++ v).takeWhile p = u.takeWhile p := by
  induction u with
  | nil => exact absurd rfl h
  | cons a t ih =>
    by_cases ha : p a
    · simp only [List.dropWhile_cons, ha, if_true] at h
      simp [List.takeWhile_cons, ha, ih h]
    · simp [List.takeWhile_cons, ha]

theorem wordB_head_append_newline (t : List Char) :
    wordB ((t ++ ['\n']).head?) = wordB t.head? := by
  cases t with
  | nil => rfl
  | cons a t2 => rfl

theorem boundary_head_append_newline (y : Option Char) (t : List Char) :
    boundary y ((t ++ ['\n']).head?) = boundary y t.head? := by
  unfold boundary
  rw [wordB_head_append_newline]

theorem lastBoundary_congr (run : List Char) {s₁ s₂ : Option Char}
    (h : wordB s₁ = wordB s₂) :
    ∀ pc : Char, lastBoundary pc run s₁ = lastBoundary pc run s₂ := by
  induction run with
  | nil =>
    intro pc
    rw [lastBoundary_nil, lastBoundary_nil]
    unfold boundary
    rw [h]
  | cons c cs ih =>
    intro pc
    rw [lastBoundary_cons, lastBoundary_cons, ih c]

theorem octet_ext (u : List Char) :
    octet (u ++ ['\n']) = (octet u).map (fun p => (p.1, p.2 ++ ['\n'])) := by
  unfold octet
  rw [takeWhile_append_single (by decide) u, dropWhile_append_single (by decide) u]
  by_cases hcond : (u.takeWhile Char.isDigit).length = 0 ∨ 3 < (u.takeWhile Char.isDigit).length
  · rw [if_pos hcond, if_pos hcond]
    rfl
  · rw [if_neg hcond, if_neg hcond]
    rfl

theorem hexRun14_ext (u : List Char) :
    hexRun14 (u ++ ['\n']) = (hexRun14 u).map (fun p => (p.1, p.2 ++ ['\n'])) := by
  unfold hexRun14
  rw [takeWhile_append_single (by decide) u, dropWhile_append_single (by decide) u]
  by_cases hcond : (u.takeWhile isHexC).length = 0 ∨ 4 < (u.takeWhile isHexC).length
  · rw [if_pos hcond, if_pos hcond]
    rfl
  · rw [if_neg hcond, if_neg hcond]
    rfl

theorem expectDot_ext (t : List Char) :
    expectDot (t ++ ['\n']) = (expectDot t).map (fun r => r ++ ['\n']) := by
  cases t with
  | nil => rfl
  | cons c r =>
    rcases eq_or_ne c '.' with rfl | hc
    · rfl
    · rw [expectDot_eq_none (t := c :: r ++ ['\n']) (by simp [hc]),
        expectDot_eq_none (by simp [hc])]
      rfl

theorem expectColon_ext (t : List Char) :
    expectColon (t ++ ['\n']) = (expectColon t).map (fun r => r ++ ['\n']) := by
  cases t with
  | nil => rfl
  | cons c r =>
    rcases eq_or_ne c ':' with rfl | hc
    · rfl
    · rw [expectColon_eq_none (t := c :: r ++ ['\n']) (by simp [hc]),
        expectColon_eq_none (by simp [hc])]
      rfl

theorem takeLit_ext {name : List Char} (hnl : '\n' ∉ name) (s : List Char) :
    takeLit name (s ++ ['\n']) = (takeLit name s).map (fun r => r ++ ['\n']) := by
  by_cases hcond : s.take name.length = name
  · have hlen : name.length ≤ s.length := by
      have hlt := congrArg List.length hcond
      rw [List.length_take] at hlt
      omega
    unfold takeLit
    rw [List.take_append_of_le_length hlen, List.drop_append_of_le_length hlen,
      if_pos hcond, if_pos hcond]
    rfl
  · have hcond2 : ¬((s ++ ['\n']).take name.length = name) := by
      intro he
      rcases le_or_lt name.length s.length with hle | hlt
      · rw [List.take_append_of_le_length hle] at he
        exact hcond he
      · have hfull : (s ++ ['\n']).take name.length = s ++ ['\n'] :=
          List.take_of_length_le (by simp; omega)
        rw [hfull] at he
        apply hnl
        rw [← he]
        simp
    unfold takeLit
    rw [if_neg hcond, if_neg hcond2]
    rfl

theorem expectDot_some {t r : List Char} (h : expectDot t = some r) : t = '.' :: r := by
  cases t with
  | nil => cases h
  | cons c cs =>
    rcases eq_or_ne c '.' with rfl | hc
    · have heq : expectDot ('.' :: cs) = some cs := rfl
      rw [heq] at h
      injection h with h1
      rw [h1]
    · rw [expectDot_eq_none (by simp [hc])] at h
      cases h

theorem expectColon_some {t r : List Char} (h : expectColon t = some r) : t = ':' :: r := by
  cases t with
  | nil => cases h
  | cons c cs =>
    rcases eq_or_ne c ':' with rfl | hc
    · have heq : expectColon (':' :: cs) = some cs := rfl
      rw [heq] at h
      injection h with h1
      rw [h1]
    · rw [expectColon_eq_none (by simp [hc])] at h
      cases h

theorem octet_rest_sub {t : List Char} {p : List Char × List Char}
    (h : octet t = some p) : List.Sublist p.2 t := by
  rw [octet_shape h]
  exact List.dropWhile_sublist _

theorem hexRun14_rest_sub {t : List Char} {p : List Char × List Char}
    (h : hexRun14 t = some p) : List.Sublist p.2 t := by
  rw [hexRun14_shape h]
  exact List.dropWhile_sublist _

theorem octet_cons_rest_sublist {c : Char} {cs : List Char} {p : List Char × List Char}
    (h : octet (c :: cs) = some p) : List.Sublist p.2 cs := by
  have hsh := octet_shape h
  have hne : (c :: cs).takeWhile Char.isDigit ≠ [] := by
    intro hnil
    unfold octet at h
    rw [hnil] at h
    simp at h
  have hc : Char.isDigit c = true := by
    by_contra hcc
    apply hne
    rw [List.takeWhile_cons, if_neg (by simpa using hcc)]
  rw [hsh, List.dropWhile_cons, if_pos hc]
  exact List.dropWhile_sublist _

theorem hexRun14_cons_rest_sublist {c : Char} {cs : List Char} {p : List Char × List Char}
    (h : hexRun14 (c :: cs) = some p) : List.Sublist p.2 cs := by
  have hsh := hexRun14_shape h
  have hne : (c :: cs).takeWhile isHexC ≠ [] := by
    intro hnil
    unfold hexRun14 at h
    rw [hnil] at h
    simp at h
  have hc : isHexC c = true := by
    by_contra hcc
    apply hne
    rw [List.takeWhile_cons, if_neg (by simpa using hcc)]
  rw [hsh, List.dropWhile_cons, if_pos hc]
  exact List.dropWhile_sublist _

theorem takeWhile_self_all {p : Char → Bool} (l : List Char) :
    (l.takeWhile p).all p = true := by
  induction l with
  | nil => rfl
  | cons a t ih =>
    by_cases ha : p a
    · simp [List.takeWhile_cons, ha, ih]
    · simp [List.takeWhile_cons, ha]

theorem octet_fst_all {t : List Char} {p : List Char × List Char}
    (h : octet t = some p) : p.1.all Char.isDigit = true := by
  have hp : p.1 = t.takeWhile Char.isDigit := by
    unfold octet at h
    split at h
    · cases h
    · cases h
      rfl
  rw [hp]
  exact takeWhile_self_all t

theorem hexRun14_fst_all {t : List Char} {p : List Char × List Char}
    (h : hexRun14 t = some p) : p.1.all isHexC = true := by
  have hp : p.1 = t.takeWhile isHexC := by
    unfold hexRun14 at h
    split at h
    · cases h
    · cases h
      rfl
  rw [hp]
  exact takeWhile_self_all t

/-- The IPv4 matcher never fires on a bare newline. -/
theorem ipv4M_nl (prev : Option Char) : ipv4M prev ['\n'] = none := by
  unfold ipv4M
  rcases hchk : check (boundary prev (['\n'] : List Char).head?) with _ | u
  · rfl
  · rw [Option.some_bind, show octet ['\n'] = none from rfl]
    rfl

/-- The rest returned by the IPv4 matcher is a sublist of the tail of the
subject. -/
theorem ipv4M_rest_sublist {prev : Option Char} {c : Char} {cs rep rest : List Char}
    {lc : Option Char} (h : ipv4M prev (c :: cs) = some (rep, lc, rest)) : List.Sublist rest cs := by
  unfold ipv4M at h
  rcases hchk : check (boundary prev (c :: cs).head?) with _ | u
  · rw [hchk, Option.none_bind] at h; cases h
  · rw [hchk, Option.some_bind] at h
    rcases ho1 : octet (c :: cs) with _ | g1
    · rw [ho1, Option.none_bind] at h; cases h
    · rw [ho1, Option.some_bind] at h
      rcases hd1 : expectDot g1.2 with _ | r1
      · rw [hd1, Option.none_bind] at h; cases h
      · rw [hd1, Option.some_bind] at h
        rcases ho2 : octet r1 with _ | g2
        · rw [ho2, Option.none_bind] at h; cases h
        · rw [ho2, Option.some_bind] at h
          rcases hd2 : expectDot g2.2 with _ | r2
          · rw [hd2, Option.none_bind] at h; cases h
          · rw [hd2, Option.some_bind] at h
            rcases ho3 : octet r2 with _ | g3
            · rw [ho3, Option.none_bind] at h; cases h
            · rw [ho3, Option.some_bind] at h
              rcases hd3 : expectDot g3.2 with _ | r3
              · rw [hd3, Option.none_bind] at h; cases h
              · rw [hd3, Option.some_bind] at h
                rcases ho4 : octet r3 with _ | g4
                · rw [ho4, Option.none_bind] at h; cases h
                · rw [ho4, Option.some_bind] at h
                  rcases hchk2 : check (boundary g4.1.getLast? g4.2.head?) with _ | u2
                  · rw [hchk2, Option.none_bind] at h; cases h
                  · rw [hchk2, Option.some_bind] at h
                    injection h with h1
                    have hrest : rest = g4.2 := (congrArg (fun x => x.2.2) h1).symm
                    rw [hrest]
                    have s1 : List.Sublist g1.2 cs := octet_cons_rest_sublist ho1
                    have s2 : List.Sublist r1 g1.2 := by
                      rw [expectDot_some hd1]
                      exact List.sublist_cons_self _ _
                    have s3 : List.Sublist g2.2 r1 := octet_rest_sub ho2
                    have s4 : List.Sublist r2 g2.2 := by
                      rw [expectDot_some hd2]
                      exact List.sublist_cons_self _ _
                    have s5 : List.Sublist g3.2 r2 := octet_rest_sub ho3
                    have s6 : List.Sublist r3 g3.2 := by
                      rw [expectDot_some hd3]
                      exact List.sublist_cons_self _ _
                    have s7 : List.Sublist g4.2 r3 := octet_rest_sub ho4
                    exact s7.trans (s6.trans (s5.trans (s4.trans (s3.trans (s2.trans s1)))))

/-- The replacement of the IPv4 matcher has no newline. -/
theorem ipv4M_rep_no_newline {prev : Option Char} {s rep rest : List Char}
    {lc : Option Char} (h : ipv4M prev s = some (rep, lc, rest)) : '\n' ∉ rep := by
  unfold ipv4M at h
  rcases hchk : check (boundary prev s.head?) with _ | u
  · rw [hchk, Option.none_bind] at h; cases h
  · rw [hchk, Option.some_bind] at h
    rcases ho1 : octet s with _ | g1
    · rw [ho1, Option.none_bind] at h; cases h
    · rw [ho1, Option.some_bind] at h
      rcases hd1 : expectDot g1.2 with _ | r1
      · rw [hd1, Option.none_bind] at h; cases h
      · rw [hd1, Option.some_bind] at h
        rcases ho2 : octet r1 with _ | g2
        · rw [ho2, Option.none_bind] at h; cases h
        · rw [ho2, Option.some_bind] at h
          rcases hd2 : expectDot g2.2 with _ | r2
          · rw [hd2, Option.none_bind] at h; cases h
          · rw [hd2, Option.some_bind] at h
            rcases ho3 : octet r2 with _ | g3
            · rw [ho3, Option.none_bind] at h; cases h
            · rw [ho3, Option.some_bind] at h
              rcases hd3 : expectDot g3.2 with _ | r3
              · rw [hd3, Option.none_bind] at h; cases h
              · rw [hd3, Option.some_bind] at h
                rcases ho4 : octet r3 with _ | g4
                · rw [ho4, Option.none_bind] at h; cases h
                · rw [ho4, Option.some_bind] at h
                  rcases hchk2 : check (boundary g4.1.getLast? g4.2.head?) with _ | u2
                  · rw [hchk2, Option.none_bind] at h; cases h
                  · rw [hchk2, Option.some_bind] at h
                    injection h with h1
                    have hrep : rep = 'x' :: '.' :: 'x' :: '.' :: g3.1 ++ '.' :: g4.1 :=
                      (congrArg (fun x => x.1) h1).symm
                    rw [hrep]
                    exact not_mem_cons_of (by decide) (not_mem_cons_of (by decide)
                      (not_mem_cons_of (by decide) (not_mem_cons_of (by decide)
                        (not_mem_append_of (not_mem_of_all (octet_fst_all ho3) (by decide))
                          (not_mem_cons_of (by decide)
                            (not_mem_of_all (octet_fst_all ho4) (by decide)))))))

/-- Appending a final newline to a nonempty subject shifts the IPv4 matcher
result by the same newline. -/
theorem ipv4M_ext {prev : Option Char} {b : List Char} (hb : b ≠ []) :
    ipv4M prev (b ++ ['\n']) =
      (ipv4M prev b).map (fun x => (x.1, x.2.1, x.2.2 ++ ['\n'])) := by
  unfold ipv4M
  rw [head?_append_of_ne_nil _ hb]
  rcases check (boundary prev b.head?) with _ | u
  · rfl
  · simp only [Option.some_bind]
    rw [octet_ext]
    rcases octet b with _ | g1
    · rfl
    · simp only [Option.map_some', Option.some_bind]
      rw [expectDot_ext]
      rcases expectDot g1.2 with _ | r1
      · rfl
      · simp only [Option.map_some', Option.some_bind]
        rw [octet_ext]
        rcases octet r1 with _ | g2
        · rfl
        · simp only [Option.map_some', Option.some_bind]
          rw [expectDot_ext]
          rcases expectDot g2.2 with _ | r2
          · rfl
          · simp only [Option.map_some', Option.some_bind]
            rw [octet_ext]
            rcases octet r2 with _ | g3
            · rfl
            · simp only [Option.map_some', Option.some_bind]
              rw [expectDot_ext]
              rcases expectDot g3.2 with _ | r3
              · rfl
              · simp only [Option.map_some', Option.some_bind]
                rw [octet_ext]
                rcases octet r3 with _ | g4
                · rfl
                · simp only [Option.map_some', Option.some_bind]
                  rw [boundary_head_append_newline]
                  rcases check (boundary g4.1.getLast? g4.2.head?) with _ | u2
                  · rfl
                  · rfl

theorem all_sublist {p : Char → Bool} {l₁ l₂ : List Char}
    (hs : List.Sublist l₁ l₂) (h : l₂.all p = true) : l₁.all p = true := by
  rw [List.all_eq_true] at *
  exact fun x hx => h x (hs.mem hx)

theorem takeLit_some {name s r : List Char} (h : takeLit name s = some r) :
    r = s.drop name.length := by
  unfold takeLit at h
  split at h
  · injection h with h1
    exact h1.symm
  · cases h

/-- The IPv6 matcher never fires on a bare newline. -/
theorem ipv6M_nl (prev : Option Char) : ipv6M prev ['\n'] = none := by
  unfold ipv6M
  rcases check (boundary prev (['\n'] : List Char).head?) with _ | u
  · rfl
  · simp only [Option.some_bind]
    rw [show hexRun14 ['\n'] = none from rfl]
    rfl

/-- The rest returned by the IPv6 matcher is a sublist of the tail of the
subject. -/
theorem ipv6M_rest_sublist {prev : Option Char} {c : Char} {cs rep rest : List Char}
    {lc : Option Char} (h : ipv6M prev (c :: cs) = some (rep, lc, rest)) :
    List.Sublist rest cs := by
  unfold ipv6M at h
  rcases hchk : check (boundary prev (c :: cs).head?) with _ | u
  · rw [hchk, Option.none_bind] at h; cases h
  · rw [hchk, Option.some_bind] at h
    rcases hr1 : hexRun14 (c :: cs) with _ | g1
    · rw [hr1, Option.none_bind] at h; cases h
    · rw [hr1, Option.some_bind] at h
      rcases hc1 : expectColon g1.2 with _ | r1
      · rw [hc1, Option.none_bind] at h; cases h
      · rw [hc1, Option.some_bind] at h
        rcases hr2 : hexRun14 r1 with _ | g2
        · rw [hr2, Option.none_bind] at h; cases h
        · rw [hr2, Option.some_bind] at h
          have chain : List.Sublist g2.2 cs := by
            have s1 : List.Sublist g1.2 cs := hexRun14_cons_rest_sublist hr1
            have s2 : List.Sublist r1 g1.2 := by
              rw [expectColon_some hc1]
              exact List.sublist_cons_self _ _
            have s3 : List.Sublist g2.2 r1 := hexRun14_rest_sub hr2
            exact s3.trans (s2.trans s1)
          rcases hc2 : expectColon g2.2 with _ | r2
          · rw [hc2] at h
            dsimp only at h
            rcases hchk2 : check (boundary g2.1.getLast? g2.2.head?) with _ | u2
            · rw [hchk2, Option.none_bind] at h; cases h
            · rw [hchk2, Option.some_bind] at h
              injection h with h1
              have hrest : rest = g2.2 := (congrArg (fun x => x.2.2) h1).symm
              rw [hrest]
              exact chain
          · rw [hc2] at h
            dsimp only at h
            rcases hlb : lastBoundary ':' (r2.takeWhile isHexColon)
                ((r2.dropWhile isHexColon).head?) with _ | k
            · rw [hlb] at h
              dsimp only at h
              rcases hchk2 : check (boundary g2.1.getLast? (some ':')) with _ | u2
              · rw [hchk2, Option.none_bind] at h; cases h
              · rw [hchk2, Option.some_bind] at h
                injection h with h1
                have hrest : rest = ':' :: r2 := (congrArg (fun x => x.2.2) h1).symm
                rw [hrest, ← expectColon_some hc2]
                exact chain
            · rw [hlb] at h
              dsimp only at h
              injection h with h1
              have hrest : rest = (r2.takeWhile isHexColon).drop k ++ r2.dropWhile isHexColon :=
                (congrArg (fun x => x.2.2) h1).symm
              rw [hrest]
              have hsub : List.Sublist
                  ((r2.takeWhile isHexColon).drop k ++ r2.dropWhile isHexColon)
                  (r2.takeWhile isHexColon ++ r2.dropWhile isHexColon) :=
                List.Sublist.append (List.drop_sublist _ _) (List.Sublist.refl _)
              rw [List.takeWhile_append_dropWhile] at hsub
              have hr2sub : List.Sublist r2 g2.2 := by
                rw [expectColon_some hc2]
                exact List.sublist_cons_self _ _
              exact hsub.trans (hr2sub.trans chain)

/-- The replacement of the IPv6 matcher has no newline. -/
theorem ipv6M_rep_no_newline {prev : Option Char} {s rep rest : List Char}
    {lc : Option Char} (h : ipv6M prev s = some (rep, lc, rest)) : '\n' ∉ rep := by
  unfold ipv6M at h
  rcases hchk : check (boundary prev s.head?) with _ | u
  · rw [hchk, Option.none_bind] at h; cases h
  · rw [hchk, Option.some_bind] at h
    rcases hr1 : hexRun14 s with _ | g1
    · rw [hr1, Option.none_bind] at h; cases h
    · rw [hr1, Option.some_bind] at h
      rcases hc1 : expectColon g1.2 with _ | r1
      · rw [hc1, Option.none_bind] at h; cases h
      · rw [hc1, Option.some_bind] at h
        rcases hr2 : hexRun14 r1 with _ | g2
        · rw [hr2, Option.none_bind] at h; cases h
        · rw [hr2, Option.some_bind] at h
          rcases hc2 : expectColon g2.2 with _ | r2
          · rw [hc2] at h
            dsimp only at h
            rcases hchk2 : check (boundary g2.1.getLast? g2.2.head?) with _ | u2
            · rw [hchk2, Option.none_bind] at h; cases h
            · rw [hchk2, Option.some_bind] at h
              injection h with h1
              have hrep : rep = ['y', ':', 'y'] := (congrArg (fun x => x.1) h1).symm
              rw [hrep]
              decide
          · rw [hc2] at h
            dsimp only at h
            rcases hlb : lastBoundary ':' (r2.takeWhile isHexColon)
                ((r2.dropWhile isHexColon).head?) with _ | k
            · rw [hlb] at h
              dsimp only at h
              rcases hchk2 : check (boundary g2.1.getLast? (some ':')) with _ | u2
              · rw [hchk2, Option.none_bind] at h; cases h
              · rw [hchk2, Option.some_bind] at h
                injection h with h1
                have hrep : rep = ['y', ':', 'y'] := (congrArg (fun x => x.1) h1).symm
                rw [hrep]
                decide
            · rw [hlb] at h
              dsimp only at h
              injection h with h1
              have hrep : rep = 'y' :: ':' :: 'y' :: ':' :: (r2.takeWhile isHexColon).take k :=
                (congrArg (fun x => x.1) h1).symm
              rw [hrep]
              have hall : ((r2.takeWhile isHexColon).take k).all isHexColon = true :=
                all_sublist (List.take_sublist _ _) (takeWhile_self_all r2)
              exact not_mem_cons_of (by decide) (not_mem_cons_of (by decide)
                (not_mem_cons_of (by decide) (not_mem_cons_of (by decide)
                  (not_mem_of_all hall (by decide)))))

/-- Appending a final newline to a nonempty subject shifts the IPv6 matcher
result by the same newline. -/
theorem ipv6M_ext {prev : Option Char} {b : List Char} (hb : b ≠ []) :
    ipv6M prev (b ++ ['\n']) =
      (ipv6M prev b).map (fun x => (x.1, x.2.1, x.2.2 ++ ['\n'])) := by
  unfold ipv6M
  rw [head?_append_of_ne_nil _ hb]
  rcases check (boundary prev b.head?) with _ | u
  · rfl
  · simp only [Option.some_bind]
    rw [hexRun14_ext]
    rcases hexRun14 b with _ | g1
    · rfl
    · simp only [Option.map_some', Option.some_bind]
      rw [expectColon_ext]
      rcases expectColon g1.2 with _ | r1
      · rfl
      · simp only [Option.map_some', Option.some_bind]
        rw [hexRun14_ext]
        rcases hexRun14 r1 with _ | g2
        · rfl
        · simp only [Option.map_some', Option.some_bind]
          rw [expectColon_ext]
          rcases expectColon g2.2 with _ | r2
          · simp only [Option.map_none']
            rw [boundary_head_append_newline]
            rcases check (boundary g2.1.getLast? g2.2.head?) with _ | u2
            · rfl
            · rfl
          · simp only [Option.map_some']
            rw [takeWhile_append_single (by decide) r2, dropWhile_append_single (by decide) r2]
            rw [lastBoundary_congr (r2.takeWhile isHexColon)
              (wordB_head_append_newline (r2.dropWhile isHexColon)) ':']
            rcases lastBoundary ':' (r2.takeWhile isHexColon)
                ((r2.dropWhile isHexColon).head?) with _ | k
            · rcases check (boundary g2.1.getLast? (some ':')) with _ | u2
              · rfl
              · rfl
            · simp [List.append_assoc]

/-- The word matcher never fires on a bare newline. -/
theorem wordM_nl {name rep : List Char} (hn : name ≠ []) (hnl : '\n' ∉ name)
    (prev : Option Char) : wordM name rep prev ['\n'] = none := by
  have htl : takeLit name ['\n'] = none := by
    unfold takeLit
    rw [if_neg]
    intro he
    obtain ⟨n0, nt, rfl⟩ := List.exists_cons_of_ne_nil hn
    rw [show (n0 :: nt : List Char).length = nt.length + 1 from rfl,
      List.take_succ_cons, List.take_nil] at he
    injection he with h1 _
    exact hnl (by rw [← h1]; simp)
  unfold wordM
  rcases check (boundary prev (['\n'] : List Char).head?) with _ | u
  · rfl
  · simp only [Option.some_bind]
    rw [htl]
    rfl

/-- The rest returned by the word matcher is a sublist of the tail of the
subject. -/
theorem wordM_rest_sublist {name rep : List Char} (hn : name ≠ [])
    {prev : Option Char} {c : Char} {cs rp rest : List Char} {lc : Option Char}
    (h : wordM name rep prev (c :: cs) = some (rp, lc, rest)) : List.Sublist rest cs := by
  unfold wordM at h
  rcases hchk : check (boundary prev (c :: cs).head?) with _ | u
  · rw [hchk, Option.none_bind] at h; cases h
  · rw [hchk, Option.some_bind] at h
    rcases htl : takeLit name (c :: cs) with _ | rest0
    · rw [htl, Option.none_bind] at h; cases h
    · rw [htl, Option.some_bind] at h
      rcases hchk2 : check (boundary name.getLast? rest0.head?) with _ | u2
      · rw [hchk2, Option.none_bind] at h; cases h
      · rw [hchk2, Option.some_bind] at h
        injection h with h1
        have hrest : rest = rest0 := (congrArg (fun x => x.2.2) h1).symm
        rw [hrest, takeLit_some htl]
        obtain ⟨n0, nt, rfl⟩ := List.exists_cons_of_ne_nil hn
        rw [show (n0 :: nt : List Char).length = nt.length + 1 from rfl,
          List.drop_succ_cons]
        exact List.drop_sublist _ _

/-- The word matcher returns exactly the given replacement. -/
theorem wordM_rep_eq {name rep : List Char} {prev : Option Char} {s rp rest : List Char}
    {lc : Option Char} (h : wordM name rep prev s = some (rp, lc, rest)) : rp = rep := by
  unfold wordM at h
  rcases hchk : check (boundary prev s.head?) with _ | u
  · rw [hchk, Option.none_bind] at h; cases h
  · rw [hchk, Option.some_bind] at h
    rcases htl : takeLit name s with _ | rest0
    · rw [htl, Option.none_bind] at h; cases h
    · rw [htl, Option.some_bind] at h
      rcases hchk2 : check (boundary name.getLast? rest0.head?) with _ | u2
      · rw [hchk2, Option.none_bind] at h; cases h
      · rw [hchk2, Option.some_bind] at h
        injection h with h1
        exact (congrArg (fun x => x.1) h1).symm

/-- Appending a final newline to a nonempty subject shifts the word matcher
result by the same newline. -/
theorem wordM_ext {name rep : List Char} (hnl : '\n' ∉ name)
    {prev : Option Char} {b : List Char} (hb : b ≠ []) :
    wordM name rep prev (b ++ ['\n']) =
      (wordM name rep prev b).map (fun x => (x.1, x.2.1, x.2.2 ++ ['\n'])) := by
  unfold wordM
  rw [head?_append_of_ne_nil _ hb]
  rcases check (boundary prev b.head?) with _ | u
  · rfl
  · simp only [Option.some_bind]
    rw [takeLit_ext hnl]
    rcases takeLit name b with _ | rest
    · rfl
    · simp only [Option.map_some', Option.some_bind]
      rw [boundary_head_append_newline]
      rcases check (boundary name.getLast? rest.head?) with _ | u2
      · rfl
      · rfl

/-- A scanner whose matcher ignores a final newline (matching it neither alone
nor across it) commutes with appending that newline. -/
theorem subGo_newline (M : Option Char → List Char → Option (List Char × Option Char × List Char))
    (Hnl : ∀ prev, M prev ['\n'] = none)
    (Hext : ∀ (prev : Option Char) (b : List Char), b ≠ [] →
      M prev (b ++ ['\n']) = (M prev b).map (fun x => (x.1, x.2.1, x.2.2 ++ ['\n'])))
    (Hrest : ∀ (prev : Option Char) (c : Char) (cs rep rest : List Char) (lc : Option Char),
      M prev (c :: cs) = some (rep, lc, rest) → List.Sublist rest cs) :
    ∀ (fuel₁ fuel₂ : Nat) (prev : Option Char) (b : List Char),
      b.length + 1 ≤ fuel₁ → b.length ≤ fuel₂ →
      subGo M fuel₁ prev (b ++ ['\n']) = subGo M fuel₂ prev b ++ ['\n'] := by
  intro fuel₁
  induction fuel₁ with
  | zero =>
    intro fuel₂ prev b h1 _
    omega
  | succ f ih =>
    intro fuel₂ prev b h1 h2
    cases b with
    | nil =>
      rw [List.nil_append, subGo_nil, List.nil_append, subGo_succ_cons, Hnl prev]
      dsimp only
      rw [subGo_nil]
    | cons c cs =>
      cases fuel₂ with
      | zero => simp at h2
      | succ f₂ =>
        rw [List.cons_append, subGo_succ_cons, subGo_succ_cons]
        have hext := Hext prev (c :: cs) (by simp)
        rw [List.cons_append] at hext
        rcases hM : M prev (c :: cs) with _ | ⟨rep, lc, rest⟩
        · rw [hM] at hext
          rw [hext]
          simp only [Option.map_none']
          rw [List.cons_append]
          refine congrArg (c :: ·) (ih f₂ (some c) cs ?_ ?_)
          · simp only [List.length_cons] at h1
            omega
          · simp only [List.length_cons] at h2
            omega
        · rw [hM] at hext
          rw [hext]
          simp only [Option.map_some']
          rw [List.append_assoc]
          refine congrArg (rep ++ ·) (ih f₂ lc rest ?_ ?_)
          · have := (Hrest prev c cs rep rest lc hM).length_le
            simp only [List.length_cons] at h1
            omega
          · have := (Hrest prev c cs rep rest lc hM).length_le
            simp only [List.length_cons] at h2
            omega

/-- A scanner whose matcher emits newline-free replacements keeps a
newline-free subject newline-free. -/
theorem subGo_no_newline (M : Option Char → List Char → Option (List Char × Option Char × List Char))
    (Hrep : ∀ (prev : Option Char) (s rep rest : List Char) (lc : Option Char),
      '\n' ∉ s → M prev s = some (rep, lc, rest) → '\n' ∉ rep)
    (Hrest : ∀ (prev : Option Char) (c : Char) (cs rep rest : List Char) (lc : Option Char),
      M prev (c :: cs) = some (rep, lc, rest) → List.Sublist rest cs) :
    ∀ (fuel : Nat) (prev : Option Char) (b : List Char),
      '\n' ∉ b → '\n' ∉ subGo M fuel prev b := by
  intro fuel
  induction fuel with
  | zero =>
    intro prev b hb
    exact hb
  | succ f ih =>
    intro prev b hb
    cases b with
    | nil => simp [subGo_nil]
    | cons c cs =>
      rw [subGo_succ_cons]
      rcases hM : M prev (c :: cs) with _ | ⟨rep, lc, rest⟩
      · dsimp only
        apply not_mem_cons_of
        · intro he
          exact hb (by rw [he]; simp)
        · exact ih (some c) cs (fun hm => hb (List.mem_cons_of_mem c hm))
      · dsimp only
        apply not_mem_append_of
        · exact Hrep prev (c :: cs) rep rest lc hb hM
        · apply ih lc rest
          intro hm
          exact hb (List.mem_cons_of_mem c ((Hrest prev c cs rep rest lc hM).mem hm))

theorem ipv4Sub_newline (b : List Char) : ipv4Sub (b ++ ['\n']) = ipv4Sub b ++ ['\n'] := by
  have h := subGo_newline ipv4M (fun prev => ipv4M_nl prev)
    (fun prev b hb => ipv4M_ext hb)
    (fun prev c cs rep rest lc h => ipv4M_rest_sublist h)
    (b ++ ['\n']).length b.length none b (by simp) (le_refl _)
  exact h

theorem ipv6Sub_newline (b : List Char) : ipv6Sub (b ++ ['\n']) = ipv6Sub b ++ ['\n'] := by
  have h := subGo_newline ipv6M (fun prev => ipv6M_nl prev)
    (fun prev b hb => ipv6M_ext hb)
    (fun prev c cs rep rest lc h => ipv6M_rest_sublist h)
    (b ++ ['\n']).length b.length none b (by simp) (le_refl _)
  exact h

theorem wordSub_newline {name rep : List Char} (hn : name ≠ []) (hnl : '\n' ∉ name)
    (b : List Char) : wordSub name rep (b ++ ['\n']) = wordSub name rep b ++ ['\n'] := by
  have h := subGo_newline (wordM name rep) (fun prev => wordM_nl hn hnl prev)
    (fun prev b hb => wordM_ext hnl hb)
    (fun prev c cs rp rest lc h => wordM_rest_sublist hn h)
    (b ++ ['\n']).length b.length none b (by simp) (le_refl _)
  exact h

theorem ipv4Sub_no_newline {b : List Char} (hb : '\n' ∉ b) : '\n' ∉ ipv4Sub b :=
  subGo_no_newline ipv4M
    (fun prev s rep rest lc _ h => ipv4M_rep_no_newline h)
    (fun prev c cs rep rest lc h => ipv4M_rest_sublist h)
    b.length none b hb

theorem ipv6Sub_no_newline {b : List Char} (hb : '\n' ∉ b) : '\n' ∉ ipv6Sub b :=
  subGo_no_newline ipv6M
    (fun prev s rep rest lc _ h => ipv6M_rep_no_newline h)
    (fun prev c cs rep rest lc h => ipv6M_rest_sublist h)
    b.length none b hb

theorem wordSub_no_newline {name rep : List Char} (hn : name ≠ []) (hrnl : '\n' ∉ rep)
    {b : List Char} (hb : '\n' ∉ b) : '\n' ∉ wordSub name rep b :=
  subGo_no_newline (wordM name rep)
    (fun prev s rp rest lc _ h => (wordM_rep_eq h) ▸ hrnl)
    (fun prev c cs rp rest lc h => wordM_rest_sublist hn h)
    b.length none b hb

theorem replace_ips_newline (b : List Char) :
    replace_ips (b ++ ['\n']) = replace_ips b ++ ['\n'] := by
  unfold replace_ips
  rw [ipv4Sub_newline, ipv6Sub_newline]

theorem replace_ips_no_newline {b : List Char} (hb : '\n' ∉ b) : '\n' ∉ replace_ips b :=
  ipv6Sub_no_newline (ipv4Sub_no_newline hb)

theorem dropWhile_space_append_newline_nil {b : List Char}
    (h : b.dropWhile isPySpace = []) : (b ++ ['\n']).dropWhile isPySpace = [] := by
  rw [List.dropWhile_eq_nil_iff] at *
  intro x hx
  rcases List.mem_append.mp hx with hm | hm
  · exact h x hm
  · simp only [List.mem_singleton] at hm
    rw [hm]
    rfl

theorem pyStrip_append_newline (b : List Char) : pyStrip (b ++ ['\n']) = pyStrip b := by
  unfold pyStrip
  by_cases hdw : b.dropWhile isPySpace = []
  · rw [dropWhile_space_append_newline_nil hdw, hdw]
  · rw [dropWhile_append_of_ne_nil _ hdw, List.reverse_append,
      show (['\n'] : List Char).reverse = ['\n'] from rfl, List.singleton_append,
      List.dropWhile_cons, if_pos (by decide)]

/-- Extending the subject by a final newline does not change whether a
newline-free key is an initial segment. -/
theorem take_key_ext {key s : List Char} (hknl : '\n' ∉ key) :
    ((s ++ ['\n']).take key.length = key) ↔ (s.take key.length = key) := by
  constructor
  · intro he
    rcases le_or_lt key.length s.length with hle | hlt
    · rwa [List.take_append_of_le_length hle] at he
    · exfalso
      have hfull : (s ++ ['\n']).take key.length = s ++ ['\n'] :=
        List.take_of_length_le (by simp; omega)
      rw [hfull] at he
      exact hknl (by rw [← he]; simp)
  · intro he
    have hlen : key.length ≤ s.length := by
      have hl := congrArg List.length he
      rw [List.length_take] at hl
      omega
    rw [List.take_append_of_le_length hlen]
    exact he

theorem maskAfterKey_newline {key repl : List Char} (hk : key ≠ []) (hknl : '\n' ∉ key)
    (b : List Char) :
    maskAfterKey key repl (b ++ ['\n']) = maskAfterKey key repl b ++ ['\n'] := by
  unfold maskAfterKey
  by_cases hdw : b.dropWhile isPySpace = []
  · rw [dropWhile_space_append_newline_nil hdw, hdw, List.take_nil,
      if_neg (fun he => hk he.symm), if_neg (fun he => hk he.symm)]
  · rw [dropWhile_append_of_ne_nil _ hdw, takeWhile_append_of_ne_nil _ hdw]
    by_cases hcond : (b.dropWhile isPySpace).take key.length = key
    · have hlen : key.length ≤ (b.dropWhile isPySpace).length := by
        have hl := congrArg List.length hcond
        rw [List.length_take] at hl
        omega
      rw [if_pos ((take_key_ext hknl).mpr hcond), if_pos hcond,
        List.drop_append_of_le_length hlen, takeWhile_append_single (by decide)]
      by_cases hbody :
          (((b.dropWhile isPySpace).drop key.length).takeWhile (fun c => c != '\n')).isEmpty = true
      · rw [if_pos hbody, if_pos hbody]
      · rw [if_neg hbody, if_neg hbody, dropWhile_append_single (by decide)]
        simp [List.append_assoc]
    · rw [if_neg (fun he => hcond ((take_key_ext hknl).mp he)), if_neg hcond]

theorem maskAfterKey_no_newline {key repl b : List Char} (hknl : '\n' ∉ key)
    (hrnl : '\n' ∉ repl) (hb : '\n' ∉ b) : '\n' ∉ maskAfterKey key repl b := by
  unfold maskAfterKey
  by_cases h1 : (b.dropWhile isPySpace).take key.length = key
  · rw [if_pos h1]
    by_cases h2 :
        (((b.dropWhile isPySpace).drop key.length).takeWhile (fun c => c != '\n')).isEmpty = true
    · rw [if_pos h2]
      exact hb
    · rw [if_neg h2]
      apply not_mem_append_of
      · apply not_mem_append_of
        · apply not_mem_append_of
          · intro hm
            exact hb ((List.takeWhile_sublist _).mem hm)
          · exact hknl
        · exact hrnl
      · intro hm
        apply hb
        have h3 := (List.dropWhile_sublist (fun c => c != '\n')).mem hm
        have h4 := (List.drop_sublist key.length _).mem h3
        exact (List.dropWhile_sublist isPySpace).mem h4
  · rw [if_neg h1]
    exact hb

theorem text_masking_newline (b : List Char) (d c : Bool) :
    process_line_for_text_masking (b ++ ['\n']) d c =
      process_line_for_text_masking b d c ++ ['\n'] := by
  unfold process_line_for_text_masking
  cases d <;> cases c
  · rfl
  · exact maskAfterKey_newline (by decide) (by decide) b
  · exact maskAfterKey_newline (by decide) (by decide) b
  · show maskAfterKey ("! ".toList) ("<comment removed>".toList)
        (maskAfterKey ("description ".toList) ("<description removed>".toList) (b ++ ['\n'])) =
      maskAfterKey ("! ".toList) ("<comment removed>".toList)
        (maskAfterKey ("description ".toList) ("<description removed>".toList) b) ++ ['\n']
    rw [maskAfterKey_newline (by decide) (by decide) b,
      maskAfterKey_newline (by decide) (by decide)]

theorem text_masking_no_newline {b : List Char} (hb : '\n' ∉ b) (d c : Bool) :
    '\n' ∉ process_line_for_text_masking b d c := by
  unfold process_line_for_text_masking
  cases d <;> cases c
  · exact hb
  · exact maskAfterKey_no_newline (by decide) (by decide) hb
  · exact maskAfterKey_no_newline (by decide) (by decide) hb
  · exact maskAfterKey_no_newline (by decide) (by decide)
      (maskAfterKey_no_newline (by decide) (by decide) hb)

theorem process_ips_newline (b : List Char) :
    process_line_for_ips (b ++ ['\n']) = process_line_for_ips b ++ ['\n'] := by
  unfold process_line_for_ips
  rw [pyStrip_append_newline]
  by_cases hrd : (pyStrip b).take 3 = ['r', 'd', ' ']
  · rw [if_pos hrd, if_pos hrd]
    rcases pySplitNone1 (pyStrip b) with _ | ⟨t, _ | ⟨v, _ | ⟨w, ws⟩⟩⟩
    · exact replace_ips_newline b
    · exact replace_ips_newline b
    · dsimp only
      rcases pyRsplitColon1 v with _ | ⟨lead, _ | ⟨tl, _ | ⟨z, zs⟩⟩⟩
      · exact replace_ips_newline b
      · exact replace_ips_newline b
      · dsimp only
        by_cases h4 : ipv4_fullmatch lead = true
        · rw [if_pos h4, if_pos h4]
          exact ipv4Sub_newline b
        · rw [if_neg h4, if_neg h4]
          by_cases h6 : ipv6_fullmatch lead = true
          · rw [if_pos h6, if_pos h6]
            exact ipv6Sub_newline b
          · rw [if_neg h6, if_neg h6]
      · exact replace_ips_newline b
    · exact replace_ips_newline b
  · rw [if_neg hrd, if_neg hrd]
    exact replace_ips_newline b

theorem process_ips_no_newline {b : List Char} (hb : '\n' ∉ b) :
    '\n' ∉ process_line_for_ips b := by
  unfold process_line_for_ips
  by_cases hrd : (pyStrip b).take 3 = ['r', 'd', ' ']
  · rw [if_pos hrd]
    rcases pySplitNone1 (pyStrip b) with _ | ⟨t, _ | ⟨v, _ | ⟨w, ws⟩⟩⟩
    · exact replace_ips_no_newline hb
    · exact replace_ips_no_newline hb
    · dsimp only
      rcases pyRsplitColon1 v with _ | ⟨lead, _ | ⟨tl, _ | ⟨z, zs⟩⟩⟩
      · exact replace_ips_no_newline hb
      · exact replace_ips_no_newline hb
      · dsimp only
        by_cases h4 : ipv4_fullmatch lead = true
        · rw [if_pos h4]
          exact ipv4Sub_no_newline hb
        · rw [if_neg h4]
          by_cases h6 : ipv6_fullmatch lead = true
          · rw [if_pos h6]
            exact ipv6Sub_no_newline hb
          · rw [if_neg h6]
            exact hb
      · exact replace_ips_no_newline hb
    · exact replace_ips_no_newline hb
  · rw [if_neg hrd]
    exact replace_ips_no_newline hb

/-- Registry pairs produced by pass 1: a nonempty whitespace-free name and a
newline-free pseudonym. -/
def GoodPair (p : List Char × List Char) : Prop :=
  p.1 ≠ [] ∧ '\n' ∉ p.1 ∧ '\n' ∉ p.2

theorem applyVrfMap_newline {m : List (List Char × List Char)}
    (hm : ∀ p ∈ m, GoodPair p) (b : List Char) :
    applyVrfMap m (b ++ ['\n']) = applyVrfMap m b ++ ['\n'] := by
  unfold applyVrfMap
  induction m generalizing b with
  | nil => rfl
  | cons p t ih =>
    rw [List.foldl_cons, List.foldl_cons]
    have hp := hm p (by simp)
    rw [wordSub_newline hp.1 hp.2.1 b]
    exact ih (fun q hq => hm q (by simp [hq])) (wordSub p.1 p.2 b)

theorem applyVrfMap_no_newline {m : List (List Char × List Char)}
    (hm : ∀ p ∈ m, GoodPair p) {b : List Char} (hb : '\n' ∉ b) :
    '\n' ∉ applyVrfMap m b := by
  unfold applyVrfMap
  induction m generalizing b with
  | nil => exact hb
  | cons p t ih =>
    rw [List.foldl_cons]
    have hp := hm p (by simp)
    exact ih (fun q hq => hm q (by simp [hq])) (wordSub_no_newline hp.1 hp.2.2 hb)

theorem digitChar_isDigit {k : Nat} (h : k < 10) : (Nat.digitChar k).isDigit = true := by
  interval_cases k <;> decide

theorem natCharsAux_digits (fuel : Nat) :
    ∀ n : Nat, (natCharsAux fuel n).all Char.isDigit = true := by
  induction fuel with
  | zero => intro n; rfl
  | succ f ih =>
    intro n
    unfold natCharsAux
    by_cases hn : n < 10
    · rw [if_pos hn]
      simp [digitChar_isDigit hn]
    · rw [if_neg hn]
      rw [List.all_append]
      rw [ih (n / 10)]
      simp [digitChar_isDigit (Nat.mod_lt n (by omega))]

theorem vrfPseudonym_no_newline (n : Nat) : '\n' ∉ vrfPseudonym n := by
  unfold vrfPseudonym natChars
  apply not_mem_append_of
  · decide
  · exact not_mem_of_all (natCharsAux_digits (n + 1) n) (by decide)

theorem vrfDefCapture_shape {line name : List Char} (h : vrfDefCapture line = some name) :
    name ≠ [] ∧ name.all (fun c => !isPySpace c) = true := by
  unfold vrfDefCapture at h
  split at h
  · split at h
    · cases h
    · rename_i hcond2
      injection h with h1
      constructor
      · rw [← h1]
        intro he
        exact hcond2 (by rw [he]; rfl)
      · rw [← h1]
        exact takeWhile_self_all _
  · cases h

theorem discoverVrfs_good (lines : List (List Char)) :
    ∀ p ∈ discoverVrfs lines, GoodPair p := by
  rw [discoverVrfs_eq_foldNames]
  have hnames : ∀ n ∈ lines.filterMap vrfDefCapture,
      n ≠ [] ∧ n.all (fun c => !isPySpace c) = true := by
    intro n hn
    obtain ⟨l, _, hcap⟩ := List.mem_filterMap.mp hn
    exact vrfDefCapture_shape hcap
  suffices hfold : ∀ (names : List (List Char)),
      (∀ n ∈ names, n ≠ [] ∧ n.all (fun c => !isPySpace c) = true) →
      ∀ (acc : List (List Char × List Char)), (∀ p ∈ acc, GoodPair p) →
      ∀ p ∈ names.foldl vrfStep acc, GoodPair p by
    exact hfold _ hnames [] (by simp)
  intro names
  induction names with
  | nil =>
    intro _ acc hacc p hp
    exact hacc p hp
  | cons n t ih =>
    intro hns acc hacc
    rw [List.foldl_cons]
    apply ih (fun x hx => hns x (by simp [hx]))
    intro p hp
    unfold vrfStep at hp
    split at hp
    · exact hacc p hp
    · rcases List.mem_append.mp hp with hmem | hmem
      · exact hacc p hmem
      · simp only [List.mem_singleton] at hmem
        rw [hmem]
        have hn := hns n (by simp)
        refine ⟨hn.1, ?_, vrfPseudonym_no_newline _⟩
        exact not_mem_of_all hn.2 (by decide)

theorem applyVrfMap_nil (m : List (List Char × List Char)) : applyVrfMap m [] = [] := by
  unfold applyVrfMap
  induction m with
  | nil => rfl
  | cons p t ih =>
    rw [List.foldl_cons, show wordSub p.1 p.2 [] = [] from rfl]
    exact ih

theorem text_masking_nil (d c : Bool) : process_line_for_text_masking [] d c = [] := by
  cases d <;> cases c <;> rfl

theorem process_ips_nil : process_line_for_ips [] = [] := rfl

/-- The terminator of a raw line: its final newline when there is one. -/
def lineTerminator (l : List Char) : List Char :=
  if l.getLast? = some '\n' then ['\n'] else []

/-- A per-line transformation that commutes with the final newline, introduces
no newline and fixes the empty line maps a line with no interior newline to a
newline-free body followed by the original terminator. -/
theorem processed_line_shape {f : List Char → List Char}
    (hcomm : ∀ b, f (b ++ ['\n']) = f b ++ ['\n'])
    (hno : ∀ b, '\n' ∉ b → '\n' ∉ f b)
    {l : List Char} (hl : '\n' ∉ l.dropLast) :
    ∃ body : List Char, '\n' ∉ body ∧ f l = body ++ lineTerminator l := by
  rcases hlast : l.getLast? with _ | c
  · have hnil : l = [] := by
      cases l with
      | nil => rfl
      | cons x xs => rw [List.getLast?_eq_getLast _ (by simp)] at hlast; cases hlast
    subst hnil
    exact ⟨f [], hno [] (by simp), by simp [lineTerminator]⟩
  · have hne : l ≠ [] := by
      intro e
      rw [e] at hlast
      cases hlast
    have hlg : l.getLast (by exact hne) = c := by
      rw [List.getLast?_eq_getLast _ hne] at hlast
      injection hlast
    have hsplit : l = l.dropLast ++ [c] := by
      rw [← hlg]
      exact (List.dropLast_append_getLast hne).symm
    rcases eq_or_ne c '\n' with rfl | hc
    · refine ⟨f l.dropLast, hno _ hl, ?_⟩
      have hterm : lineTerminator l = ['\n'] := by
        unfold lineTerminator
        rw [hlast]
        simp
      rw [hterm]
      conv_lhs => rw [hsplit]
      exact hcomm l.dropLast
    · have hl2 : '\n' ∉ l := by
        rw [hsplit]
        apply not_mem_append_of hl
        simp [Ne.symm hc]
      refine ⟨f l, hno _ hl2, ?_⟩
      have hterm : lineTerminator l = [] := by
        unfold lineTerminator
        rw [hlast]
        simp [hc]
      rw [hterm, List.append_nil]

/-! ## Claims -/

/-- Claim C1, counterexample: the spec example output `y:y::1` for input
`fe80:1234:5678::1` is not what the code computes. -/
theorem C1_counterexample :
    replace_ips "fe80:1234:5678::1".toList ≠ "y:y::1".toList := by decide

/-- Claim C1, amended: for the input line `fe80:1234:5678::1`, IP masking
produces `y:y:5678::1` (first two hextets replaced by `y:y`, the remainder
`:5678::1` kept verbatim). -/
theorem C1_amended_output :
    replace_ips "fe80:1234:5678::1".toList = "y:y:5678::1".toList := by decide

/-- Claim C2: ordinary IP masking sends every word-bounded IPv4 token (four
dot-separated runs of 1 to 3 decimal digits, no range validation) to `x.x`
followed by its last two octets; in particular `10.20.30.40` to `x.x.30.40`,
`999.1.2.3` to `x.x.2.3`, and every match of a line is replaced. -/
theorem C2_ipv4_masking :
    (∀ a b c d : List Char,
      a ≠ [] → a.length ≤ 3 → a.all Char.isDigit = true →
      b ≠ [] → b.length ≤ 3 → b.all Char.isDigit = true →
      c ≠ [] → c.length ≤ 3 → c.all Char.isDigit = true →
      d ≠ [] → d.length ≤ 3 → d.all Char.isDigit = true →
      replace_ips (a ++ '.' :: (b ++ '.' :: (c ++ '.' :: d))) =
        'x' :: '.' :: 'x' :: '.' :: c ++ '.' :: d) ∧
    replace_ips "10.20.30.40".toList = "x.x.30.40".toList ∧
    replace_ips "999.1.2.3".toList = "x.x.2.3".toList ∧
    replace_ips "ip 1.2.3.4 peer 5.6.7.8".toList = "ip x.x.3.4 peer x.x.7.8".toList := by
  refine ⟨?_, by decide, by decide, by decide⟩
  intro a b c d ha ha3 had hb hb3 hbd hc hc3 hcd hd hd3 hdd
  have hm := @ipv4M_token none a b c d rfl ha ha3 had hb hb3 hbd hc hc3 hcd hd hd3 hdd
  have hs : a ++ '.' :: (b ++ '.' :: (c ++ '.' :: d)) ≠ [] := ne_nil_append ha
  have h4 : ipv4Sub (a ++ '.' :: (b ++ '.' :: (c ++ '.' :: d))) =
      'x' :: '.' :: 'x' :: '.' :: c ++ '.' :: d := runSub_single ipv4M hs hm
  have hnc : ':' ∉ ('x' :: '.' :: 'x' :: '.' :: c ++ '.' :: d) :=
    not_mem_cons_of (by decide) (not_mem_cons_of (by decide) (not_mem_cons_of (by decide)
      (not_mem_cons_of (by decide) (not_mem_append_of (not_mem_of_all hcd (by decide))
        (not_mem_cons_of (by decide) (not_mem_of_all hdd (by decide)))))))
  unfold replace_ips
  rw [h4]
  exact ipv6Sub_id_of_no_colon hnc

/-- Claim C2 witness: the general statement applied to `10.20.30.40`. -/
theorem C2_ipv4_masking_witness :
    replace_ips ("10".toList ++ '.' :: ("20".toList ++ '.' :: ("30".toList ++ '.' :: "40".toList))) =
      'x' :: '.' :: 'x' :: '.' :: "30".toList ++ '.' :: "40".toList :=
  C2_ipv4_masking.1 "10".toList "20".toList "30".toList "40".toList
    (by decide) (by decide) (by decide) (by decide) (by decide) (by decide)
    (by decide) (by decide) (by decide) (by decide) (by decide) (by decide)

/-- Claim C3: ordinary IP masking sends every IPv6 substitution-token match
(two leading hextets of 1 to 4 hex digits plus an optional colon-led remainder)
to `y:y` followed by the matched remainder verbatim; with no remainder `ab:cd`
becomes exactly `y:y`, and `ab:cd:12` keeps its remainder `:12`. -/
theorem C3_ipv6_masking :
    (∀ h1 h2 : List Char,
      h1 ≠ [] → h1.length ≤ 4 → h1.all isHexC = true →
      h2 ≠ [] → h2.length ≤ 4 → h2.all isHexC = true →
      replace_ips (h1 ++ ':' :: h2) = "y:y".toList) ∧
    (∀ h1 h2 r : List Char,
      h1 ≠ [] → h1.length ≤ 4 → h1.all isHexC = true →
      h2 ≠ [] → h2.length ≤ 4 → h2.all isHexC = true →
      r ≠ [] → r.all isHexColon = true → wordB r.getLast? = true →
      replace_ips (h1 ++ ':' :: (h2 ++ ':' :: r)) = 'y' :: ':' :: 'y' :: ':' :: r) ∧
    replace_ips "ab:cd".toList = "y:y".toList ∧
    replace_ips "ab:cd:12".toList = "y:y:12".toList := by
  refine ⟨?_, ?_, by decide, by decide⟩
  · intro h1 h2 h1n h14 h1h h2n h24 h2h
    have hnd : '.' ∉ (h1 ++ ':' :: h2) :=
      not_mem_append_of (not_mem_of_all h1h (by decide))
        (not_mem_cons_of (by decide) (not_mem_of_all h2h (by decide)))
    have hm := @ipv6M_token2 none h1 h2 rfl h1n h14 h1h h2n h24 h2h
    have hs : h1 ++ ':' :: h2 ≠ [] := ne_nil_append h1n
    unfold replace_ips
    rw [ipv4Sub_id_of_no_dot hnd]
    exact runSub_single ipv6M hs hm
  · intro h1 h2 r h1n h14 h1h h2n h24 h2h hrn hrA hrL
    have hnd : '.' ∉ (h1 ++ ':' :: (h2 ++ ':' :: r)) :=
      not_mem_append_of (not_mem_of_all h1h (by decide))
        (not_mem_cons_of (by decide) (not_mem_append_of (not_mem_of_all h2h (by decide))
          (not_mem_cons_of (by decide) (not_mem_of_all hrA (by decide)))))
    have hm := @ipv6M_token3 none h1 h2 r rfl h1n h14 h1h h2n h24 h2h hrn hrA hrL
    have hs : h1 ++ ':' :: (h2 ++ ':' :: r) ≠ [] := ne_nil_append h1n
    unfold replace_ips
    rw [ipv4Sub_id_of_no_dot hnd]
    exact runSub_single ipv6M hs hm

/-- Claim C3 witness: both general statements applied to `ab:cd` and
`ab:cd:12`. -/
theorem C3_ipv6_masking_witness :
    replace_ips ("ab".toList ++ ':' :: "cd".toList) = "y:y".toList ∧
    replace_ips ("ab".toList ++ ':' :: ("cd".toList ++ ':' :: "12".toList)) =
      'y' :: ':' :: 'y' :: ':' :: "12".toList :=
  ⟨C3_ipv6_masking.1 "ab".toList "cd".toList
      (by decide) (by decide) (by decide) (by decide) (by decide) (by decide),
   C3_ipv6_masking.2.1 "ab".toList "cd".toList "12".toList
      (by decide) (by decide) (by decide) (by decide) (by decide) (by decide)
      (by decide) (by decide) (by decide)⟩

/-- Claim C4: a line whose stripped form starts with `rd ` and whose value
splits at its last colon into a lead that fully matches neither the IPv4 token
nor the IPv6 validator is returned unmodified; in particular `rd 65000:100`. -/
theorem C4_rd_as_number_unchanged (line t v lead tl : List Char)
    (hrd : (pyStrip line).take 3 = ['r', 'd', ' '])
    (hsplit : pySplitNone1 (pyStrip line) = [t, v])
    (hcolon : pyRsplitColon1 v = [lead, tl])
    (h4 : ipv4_fullmatch lead = false)
    (h6 : ipv6_fullmatch lead = false) :
    process_line_for_ips line = line := by
  unfold process_line_for_ips
  rw [if_pos hrd, hsplit]
  dsimp only
  rw [hcolon]
  dsimp only
  simp [h4, h6]

/-- Claim C4 witness: `rd 65000:100` is returned byte-for-byte unchanged. -/
theorem C4_rd_as_number_unchanged_witness :
    process_line_for_ips "rd 65000:100".toList = "rd 65000:100".toList :=
  C4_rd_as_number_unchanged "rd 65000:100".toList "rd".toList "65000:100".toList
    "65000".toList "100".toList
    (by decide) (by decide) (by decide) (by decide) (by decide)

/-- Claim C5: a line whose stripped form starts with `rd ` and whose value
splits at its last colon into a lead that fully matches the IPv4 token gets
ordinary IPv4 masking applied to the whole line; in particular
`rd 10.0.0.1:100` becomes `rd x.x.0.1:100`. -/
theorem C5_rd_ipv4_masked :
    (∀ line t v lead tl : List Char,
      (pyStrip line).take 3 = ['r', 'd', ' '] →
      pySplitNone1 (pyStrip line) = [t, v] →
      pyRsplitColon1 v = [lead, tl] →
      ipv4_fullmatch lead = true →
      process_line_for_ips line = ipv4Sub line) ∧
    process_line_for_ips "rd 10.0.0.1:100".toList = "rd x.x.0.1:100".toList := by
  refine ⟨?_, by decide⟩
  intro line t v lead tl hrd hsplit hcolon h4
  unfold process_line_for_ips
  rw [if_pos hrd, hsplit]
  dsimp only
  rw [hcolon]
  dsimp only
  simp [h4]

/-- Claim C5 witness: the general statement applied to `rd 10.0.0.1:100`. -/
theorem C5_rd_ipv4_masked_witness :
    process_line_for_ips "rd 10.0.0.1:100".toList = ipv4Sub "rd 10.0.0.1:100".toList :=
  C5_rd_ipv4_masked.1 "rd 10.0.0.1:100".toList "rd".toList "10.0.0.1:100".toList
    "10.0.0.1".toList "100".toList
    (by decide) (by decide) (by decide) (by decide)

/-- Claim C9 support: when no line matches the VRF definition pattern, the
registry built by pass 1 is empty. -/
theorem discoverVrfs_eq_nil {lines : List (List Char)}
    (h : ∀ l ∈ lines, vrfDefCapture l = none) : discoverVrfs lines = [] := by
  unfold discoverVrfs
  induction lines with
  | nil => rfl
  | cons l ls ih =>
    have hl := h l (by simp)
    simp only [List.foldl_cons]
    rw [hl]
    exact ih (fun x hx => h x (by simp [hx]))

/-- Claim C9: if VRF masking is enabled but no input line matches the VRF
definition pattern, the two-pass mode produces the same output as the one-pass
mode with the same description and comment flags. -/
theorem C9_twopass_eq_onepass (d c : Bool) (lines : List (List Char))
    (h : ∀ l ∈ lines, vrfDefCapture l = none) :
    anonymize ⟨true, d, c⟩ lines = anonymize ⟨false, d, c⟩ lines := by
  unfold anonymize
  dsimp only
  rw [discoverVrfs_eq_nil h]
  rfl

/-- Claim C9 witness: a concrete VRF-free input processed both ways. -/
theorem C9_twopass_eq_onepass_witness :
    anonymize ⟨true, true, true⟩ ["hostname sw1\n".toList, " ip address 10.1.2.3\n".toList] =
      anonymize ⟨false, true, true⟩ ["hostname sw1\n".toList, " ip address 10.1.2.3\n".toList] :=
  C9_twopass_eq_onepass true true _ (by decide)

theorem take_cons_ne_cons {c c2 : Char} {l l2 : List Char} (h : c ≠ c2) (n : Nat) :
    (c :: l).take n ≠ c2 :: l2 := by
  cases n with
  | zero => simp
  | succ m =>
    rw [List.take_succ_cons]
    intro heq
    injection heq with h1 _
    exact h h1

theorem pyStrip_indent {ind s : List Char} (h : ind.all isPySpace = true) :
    pyStrip (ind ++ s) = pyStrip s := by
  unfold pyStrip
  rw [dropWhile_append_all _ h]

theorem all_bne_of_not_mem {a : Char} {l : List Char} (h : a ∉ l) :
    l.all (fun x => x != a) = true := by
  rw [List.all_eq_true]
  intro x hx
  simp only [bne_iff_ne, ne_eq, decide_eq_true_eq]
  exact fun e => h (e ▸ hx)

/-- The anchored masking leaves a line alone when the first character after the
indent differs from the first character of the keyword. -/
theorem maskAfterKey_no_match {k0 : Char} {ktail repl ind : List Char} {c : Char}
    {rest : List Char}
    (hind : ind.all isPySpace = true) (hc : isPySpace c = false) (hck : c ≠ k0) :
    maskAfterKey (k0 :: ktail) repl (ind ++ c :: rest) = ind ++ c :: rest := by
  unfold maskAfterKey
  rw [dropWhile_append_all _ hind, List.dropWhile_cons]
  simp [hc, hck]

/-- The comment masking on an indented line whose body after `! ` starts with a
non-newline character: the body up to the first newline is replaced. -/
theorem maskComment_match {repl ind : List Char} {r0 : Char} {rs : List Char}
    (hind : ind.all isPySpace = true) (hr0 : r0 ≠ '\n') :
    maskAfterKey ('!' :: ' ' :: []) repl (ind ++ '!' :: ' ' :: (r0 :: rs)) =
      ind ++ '!' :: ' ' :: (repl ++ (r0 :: rs).dropWhile (fun c => c != '\n')) := by
  unfold maskAfterKey
  rw [takeWhile_append_all _ hind, dropWhile_append_all _ hind]
  simp [hr0, List.append_assoc, isPySpace]

/-- The comment masking skips a line that is just `!` after the indent,
optionally followed by a newline. -/
theorem maskComment_skip_bare {repl ind term : List Char}
    (hind : ind.all isPySpace = true) (hterm : term = [] ∨ term = ['\n']) :
    maskAfterKey ('!' :: ' ' :: []) repl (ind ++ '!' :: term) = ind ++ '!' :: term := by
  unfold maskAfterKey
  rw [dropWhile_append_all _ hind, List.dropWhile_cons]
  rcases hterm with rfl | rfl
  · simp [isPySpace]
  · simp [isPySpace]

/-- The RD test fails and no IPv4 or IPv6 substitution fires on a line without
dots and colons whose stripped form does not start with `rd `. -/
theorem process_ips_id_of {line : List Char}
    (hrd : (pyStrip line).take 3 ≠ ['r', 'd', ' '])
    (hnd : '.' ∉ line) (hnc : ':' ∉ line) :
    process_line_for_ips line = line := by
  unfold process_line_for_ips
  rw [if_neg hrd]
  unfold replace_ips
  rw [ipv4Sub_id_of_no_dot hnd]
  exact ipv6Sub_id_of_no_colon hnc

/-- Claim C7: with comment masking enabled, a line that is exactly `!` after
optional leading whitespace (with or without a final newline) is never
rewritten, while a line `(indent)! <at least one character>` becomes
`(indent)! <comment removed>` with the leading whitespace kept exactly;
in particular `! secret note` becomes `! <comment removed>`. -/
theorem C7_comment_masking :
    (∀ ind term : List Char, ind.all isPySpace = true → (term = [] ∨ term = ['\n']) →
      ∀ d : Bool,
        processLineOnePass ⟨false, d, true⟩ (ind ++ '!' :: term) = ind ++ '!' :: term) ∧
    (∀ ind rest term : List Char, ind.all isPySpace = true → rest ≠ [] → '\n' ∉ rest →
      (term = [] ∨ term = ['\n']) → ∀ d : Bool,
        processLineOnePass ⟨false, d, true⟩ (ind ++ '!' :: ' ' :: (rest ++ term)) =
          ind ++ '!' :: ' ' :: ("<comment removed>".toList ++ term)) ∧
    processLineOnePass ⟨false, false, true⟩ "! secret note".toList =
      "! <comment removed>".toList := by
  refine ⟨?_, ?_, by decide⟩
  · intro ind term hind hterm d
    have hdesc : (if d then
        maskAfterKey ("description ".toList) ("<description removed>".toList)
          (ind ++ '!' :: term)
      else ind ++ '!' :: term) = ind ++ '!' :: term := by
      cases d
      · rfl
      · show maskAfterKey ("description ".toList) ("<description removed>".toList)
          (ind ++ '!' :: term) = ind ++ '!' :: term
        rw [show ("description ".toList) = 'd' :: "escription ".toList from rfl]
        exact maskAfterKey_no_match hind (by decide) (by decide)
    have htm : process_line_for_text_masking (ind ++ '!' :: term) d true =
        ind ++ '!' :: term := by
      unfold process_line_for_text_masking
      rw [if_pos rfl, hdesc, show ("! ".toList) = '!' :: ' ' :: [] from rfl]
      exact maskComment_skip_bare hind hterm
    have hip : process_line_for_ips (ind ++ '!' :: term) = ind ++ '!' :: term := by
      apply process_ips_id_of
      · rw [pyStrip_indent hind]
        rcases hterm with rfl | rfl
        · decide
        · decide
      · apply not_mem_append_of (not_mem_of_all hind (by decide))
        rcases hterm with rfl | rfl
        · decide
        · decide
      · apply not_mem_append_of (not_mem_of_all hind (by decide))
        rcases hterm with rfl | rfl
        · decide
        · decide
    show process_line_for_ips (process_line_for_text_masking (ind ++ '!' :: term) d true) =
      ind ++ '!' :: term
    rw [htm]
    exact hip
  · intro ind rest term hind hrest hnl hterm d
    obtain ⟨r0, rs, rfl⟩ := List.exists_cons_of_ne_nil hrest
    have hr0 : r0 ≠ '\n' := fun e => hnl (by simp [e])
    have hrs : '\n' ∉ rs := fun hm => hnl (by simp [hm])
    have hdesc : (if d then
        maskAfterKey ("description ".toList) ("<description removed>".toList)
          (ind ++ '!' :: ' ' :: ((r0 :: rs) ++ term))
      else ind ++ '!' :: ' ' :: ((r0 :: rs) ++ term)) =
        ind ++ '!' :: ' ' :: ((r0 :: rs) ++ term) := by
      cases d
      · rfl
      · show maskAfterKey ("description ".toList) ("<description removed>".toList)
          (ind ++ '!' :: ' ' :: ((r0 :: rs) ++ term)) = _
        rw [show ("description ".toList) = 'd' :: "escription ".toList from rfl]
        exact maskAfterKey_no_match hind (by decide) (by decide)
    have hdrop : (r0 :: (rs ++ term)).dropWhile (fun c => c != '\n') = term := by
      rw [List.dropWhile_cons]
      rw [show (r0 != '\n') = true from by simp [hr0]]
      rw [if_pos rfl, dropWhile_append_all _ (all_bne_of_not_mem hrs)]
      rcases hterm with rfl | rfl
      · rfl
      · rfl
    have htm : process_line_for_text_masking (ind ++ '!' :: ' ' :: ((r0 :: rs) ++ term)) d true =
        ind ++ '!' :: ' ' :: ("<comment removed>".toList ++ term) := by
      unfold process_line_for_text_masking
      rw [if_pos rfl, hdesc, show ("! ".toList) = '!' :: ' ' :: [] from rfl]
      rw [show ((r0 :: rs) ++ term) = r0 :: (rs ++ term) from rfl]
      rw [maskComment_match hind hr0, hdrop]
    have hip : process_line_for_ips (ind ++ '!' :: ' ' :: ("<comment removed>".toList ++ term)) =
        ind ++ '!' :: ' ' :: ("<comment removed>".toList ++ term) := by
      apply process_ips_id_of
      · rw [pyStrip_indent hind]
        rcases hterm with rfl | rfl
        · decide
        · decide
      · apply not_mem_append_of (not_mem_of_all hind (by decide))
        rcases hterm with rfl | rfl
        · decide
        · decide
      · apply not_mem_append_of (not_mem_of_all hind (by decide))
        rcases hterm with rfl | rfl
        · decide
        · decide
    show process_line_for_ips
        (process_line_for_text_masking (ind ++ '!' :: ' ' :: ((r0 :: rs) ++ term)) d true) = _
    rw [htm]
    exact hip

/-- Claim C7 witness: both parts applied at concrete inputs with a two-space
indent. -/
theorem C7_comment_masking_witness :
    processLineOnePass ⟨false, true, true⟩ ("  ".toList ++ '!' :: ['\n']) =
        "  ".toList ++ '!' :: ['\n'] ∧
    processLineOnePass ⟨false, true, true⟩
        ("  ".toList ++ '!' :: ' ' :: ("secret".toList ++ ['\n'])) =
      "  ".toList ++ '!' :: ' ' :: ("<comment removed>".toList ++ ['\n']) :=
  ⟨C7_comment_masking.1 "  ".toList ['\n'] (by decide) (Or.inr rfl) true,
   C7_comment_masking.2.1 "  ".toList "secret".toList ['\n'] (by decide) (by decide)
     (by decide) (Or.inr rfl) true⟩

/-- Claim C6: with VRF masking enabled, the registry binds each distinct
captured name to `vrf_<n>` with a 1-based counter in strict first-appearance
order, and the rewrite pass replaces exactly the whole-word occurrences of the
registered names: in the example, both `MGMT` occurrences become `vrf_1`, the
later `CORE` becomes `vrf_2`, and the non-word-bounded `MGMTX` is untouched. -/
theorem C6_vrf_pseudonymization :
    (∀ lines : List (List Char),
      (discoverVrfs lines).map Prod.fst = firstSeen (lines.filterMap vrfDefCapture) ∧
      (discoverVrfs lines).map Prod.snd =
        (List.range (discoverVrfs lines).length).map (fun i => vrfPseudonym (i + 1))) ∧
    anonymize ⟨true, false, false⟩
      ["vrf definition MGMT\n".toList, "ip vrf forwarding MGMT\n".toList,
       "vrf definition CORE\n".toList, "ip vrf forwarding CORE\n".toList,
       "router MGMTX\n".toList] =
      ["vrf definition vrf_1\n".toList, "ip vrf forwarding vrf_1\n".toList,
       "vrf definition vrf_2\n".toList, "ip vrf forwarding vrf_2\n".toList,
       "router MGMTX\n".toList] := by
  refine ⟨fun lines => ⟨?_, ?_⟩, by decide⟩
  · rw [discoverVrfs_eq_foldNames, foldNames_fst]
    rfl
  · rw [discoverVrfs_eq_foldNames]
    exact foldNames_snd _ [] rfl

/-- Claim C8: for every flag combination and every input whose lines have no
interior newline (the shape `readlines` produces), the output has exactly one
line per input line in the same order, and each output line is a newline-free
body followed by the verbatim terminator of its input line (including the
missing terminator of an unterminated last line). -/
theorem C8_line_structure (opts : MaskingOptions) (lines : List (List Char))
    (hshape : ∀ l ∈ lines, '\n' ∉ l.dropLast) :
    (anonymize opts lines).length = lines.length ∧
    ∀ (i : Nat) (l : List Char), lines[i]? = some l →
      ∃ body : List Char, '\n' ∉ body ∧
        (anonymize opts lines)[i]? = some (body ++ lineTerminator l) := by
  unfold anonymize
  by_cases hv : opts.maskVrfNames = true
  · rw [if_pos hv]
    refine ⟨List.length_map _ _, ?_⟩
    intro i l hi
    rw [List.getElem?_map, hi, Option.map_some']
    have hgood := discoverVrfs_good lines
    have hmem : l ∈ lines := List.getElem?_mem hi
    obtain ⟨body, hb1, hb2⟩ := processed_line_shape
      (f := processLineTwoPass opts (discoverVrfs lines))
      (fun b => by
        unfold processLineTwoPass
        rw [applyVrfMap_newline hgood, text_masking_newline, process_ips_newline])
      (fun b hb => by
        unfold processLineTwoPass
        exact process_ips_no_newline (text_masking_no_newline (applyVrfMap_no_newline hgood hb) _ _))
      (hshape l hmem)
    exact ⟨body, hb1, by rw [hb2]⟩
  · rw [if_neg hv]
    refine ⟨List.length_map _ _, ?_⟩
    intro i l hi
    rw [List.getElem?_map, hi, Option.map_some']
    have hmem : l ∈ lines := List.getElem?_mem hi
    obtain ⟨body, hb1, hb2⟩ := processed_line_shape
      (f := processLineOnePass opts)
      (fun b => by
        unfold processLineOnePass
        rw [text_masking_newline, process_ips_newline])
      (fun b hb => by
        unfold processLineOnePass
        exact process_ips_no_newline (text_masking_no_newline hb _ _))
      (hshape l hmem)
    exact ⟨body, hb1, by rw [hb2]⟩

/-- Claim C8 witness: the theorem applied to a concrete two-line input with
all flags on, whose last line has no terminator. -/
theorem C8_line_structure_witness :
    (anonymize ⟨true, true, true⟩
        ["vrf definition A\n".toList, "rd 65000:100".toList]).length = 2 ∧
    (∃ body : List Char, '\n' ∉ body ∧
      (anonymize ⟨true, true, true⟩
        ["vrf definition A\n".toList, "rd 65000:100".toList])[0]? =
        some (body ++ lineTerminator ("vrf definition A\n".toList))) ∧
    (∃ body : List Char, '\n' ∉ body ∧
      (anonymize ⟨true, true, true⟩
        ["vrf definition A\n".toList, "rd 65000:100".toList])[1]? =
        some (body ++ lineTerminator ("rd 65000:100".toList))) := by
  have h := C8_line_structure ⟨true, true, true⟩
    ["vrf definition A\n".toList, "rd 65000:100".toList] (by decide)
  exact ⟨h.1.trans (by decide), h.2 0 _ rfl, h.2 1 _ rfl⟩

/-- Claim C10: ordinary IP masking is the IPv6 substitution composed after the
IPv4 substitution, so the IPv6 pattern can match text adjacent to IPv4-masked
residue: `1.2.3.4:5678` becomes `x.x.3.y:y`, not `x.x.3.4:5678`. -/
theorem C10_composition :
    (∀ line : List Char, replace_ips line = ipv6Sub (ipv4Sub line)) ∧
    replace_ips "1.2.3.4:5678".toList = "x.x.3.y:y".toList ∧
    replace_ips "1.2.3.4:5678".toList ≠ "x.x.3.4:5678".toList :=
  ⟨fun _ => rfl, by decide, by decide⟩

end ConfigAnon
